import Mathlib

/-!
# Verification of the `celeries` Celery client core

A shallow embedding of the coordination layer of the `celeries` TypeScript
library (URI parsing, Redis option construction, the AMQP RPC result backend,
the promise-map and resource-pool containers, and the message packing
pipeline), together with proofs and refutations of the specification claims
about it.

Conventions used throughout:

* TypeScript objects with optional fields become Lean structures whose
  optional fields have type `Option _`; an absent field is `none`.
* Fallible TypeScript code (functions that `throw ParseError` and friends)
  becomes `Except String _` or `Option _` valued Lean functions.
* JavaScript strings are modelled as Lean `String`s (sequences of Unicode
  scalar values); bytes (`Buffer`s) are modelled as `List Nat` with every
  element below 256.
* Asynchronous settlement is modelled by explicit state passing: every
  promise-like object is identified with the record it settles through, and
  delivery to waiters is recorded explicitly in the returned data.
-/

namespace Celeries

/- ===================================================================== -/
/- DEFINITIONS                                                           -/
/- ===================================================================== -/

/-! ## Redis option records (`src/redis/basic_options.ts`) -/

/-- Model of `BasicRedisTcpOptions` from `src/redis/basic_options.ts`.
Only the fields the claims speak about are carried; all of them are
optional in the source except `protocol`. -/
structure BasicRedisTcpOptions where
  protocol : String
  host : Option String := none
  port : Option Nat := none
  db : Option Nat := none
  password : Option String := none
  noDelay : Option Bool := none
  keyPrefix : Option String := none
  dropBufferSupport : Option Bool := none
  stringNumbers : Option Bool := none
  deriving Repr, DecidableEq

/-- Model of `BasicRedisClusterOptions` from `src/redis/basic_options.ts`.
`redisOptions` is the optional nested TCP-options object. -/
structure BasicRedisClusterOptions where
  nodes : List (String × Nat)
  redisOptions : Option BasicRedisTcpOptions := none
  maxRedirections : Option Nat := none
  deriving Repr, DecidableEq

/-! ## Redis option constructors (`src/redis/options.ts`) -/

/-- Model of `appendDefaultOptions` (`src/redis/options.ts`, lines 39-48):
spreads the incoming options and then forces `dropBufferSupport`,
`keyPrefix` and `stringNumbers`, overwriting any caller-supplied value. -/
def appendDefaultOptions (options : BasicRedisTcpOptions) : BasicRedisTcpOptions :=
  { options with
      dropBufferSupport := some true
      keyPrefix := some "celery-task-meta-"
      stringNumbers := some true }

/-- Model of the `RedisTcpOptions` constructor (`src/redis/options.ts`,
lines 71-73): stores `appendDefaultOptions options`. The `RedisSocketOptions`
and `RedisSentinelOptions` constructors apply the same function to their
respective option records. -/
def RedisTcpOptions.make (options : BasicRedisTcpOptions) : BasicRedisTcpOptions :=
  appendDefaultOptions options

/-- Model of the `RedisClusterOptions` constructor (`src/redis/options.ts`,
lines 174-185): when `redisOptions` is absent the record is stored
unchanged; otherwise only the nested `redisOptions` is passed through
`appendDefaultOptions`. -/
def RedisClusterOptions.make (options : BasicRedisClusterOptions) :
    BasicRedisClusterOptions :=
  match options.redisOptions with
  | none => options
  | some inner => { options with redisOptions := some (appendDefaultOptions inner) }

/-! ## Integer parsing utility (`src/utility.ts`)

Modelled from the spec: `src/utility.ts` is not part of the source tree
(only its test suite is), so `parseInteger` is modelled from spec
section 4.10 and the utility tests: trim whitespace, then accept
`0b[01]+`, `0x[0-9a-f]+` (case-insensitive), `0[0-7]+` (octal) or plain
decimal, rejecting empty bodies, mixed bases and invalid digits. -/

/-- JavaScript `String.prototype.trim` on a character list. -/
def jsTrim (cs : List Char) : List Char :=
  ((cs.dropWhile Char.isWhitespace).reverse.dropWhile Char.isWhitespace).reverse

/-- Value of a hexadecimal digit character, `none` otherwise. -/
def hexDigitVal (c : Char) : Option Nat :=
  if c.isDigit then some (c.toNat - 48)
  else if 'a' ≤ c ∧ c ≤ 'f' then some (c.toNat - 87)
  else if 'A' ≤ c ∧ c ≤ 'F' then some (c.toNat - 55)
  else none

/-- Value of a digit character in the given base, `none` when the
character is not a valid digit of that base. -/
def digitInBase (base : Nat) (c : Char) : Option Nat :=
  match hexDigitVal c with
  | some v => if v < base then some v else none
  | none => none

/-- Accumulating digit-run parser. -/
def parseDigitsGo (base : Nat) : List Char → Nat → Option Nat
  | [], acc => some acc
  | c :: rest, acc =>
      match digitInBase base c with
      | some v => parseDigitsGo base rest (acc * base + v)
      | none => none

/-- A non-empty digit run in the given base, as a number. -/
def parseDigits (base : Nat) (cs : List Char) : Option Nat :=
  if cs = [] then none else parseDigitsGo base cs 0

/-- A digit-run parse as an `Except`, with the parse-error message. -/
def ofOptInt (o : Option Nat) : Except String Nat :=
  match o with
  | some n => Except.ok n
  | none => Except.error "parseInteger: invalid integer literal"

/-- Modelled from the spec (section 4.10): body of `parseInteger` after
trimming.  A leading `0x`/`0X` selects base 16, `0b`/`0B` base 2, a lone
`0` is zero, any other leading `0` selects base 8, and everything else is
decimal; an empty or invalid body is a parse error. -/
def parseIntegerCore (cs : List Char) : Except String Nat :=
  match cs with
  | [] => Except.error "parseInteger: invalid integer literal"
  | c :: rest =>
      if c = '0' then
        match rest with
        | [] => Except.ok 0
        | d :: rest' =>
            if d = 'x' ∨ d = 'X' then ofOptInt (parseDigits 16 rest')
            else if d = 'b' ∨ d = 'B' then ofOptInt (parseDigits 2 rest')
            else ofOptInt (parseDigits 8 rest)
      else ofOptInt (parseDigits 10 cs)

/-- Modelled from the spec (section 4.10): `parseInteger(s)`. -/
def parseInteger (s : String) : Except String Nat :=
  parseIntegerCore (jsTrim s.data)

/-! ## Redis TCP URI database path (`src/redis/options.ts`, second half:
`src/redis/uri/tcp.ts`) -/

/-- Decimal value of a digit run (most significant first). -/
def natOfDigitsFrom : Nat → List Char → Nat
  | a, [] => a
  | a, c :: rest => natOfDigitsFrom (a * 10 + (c.toNat - 48)) rest

/-- Decimal value of a digit run. -/
def natOfDigits (cs : List Char) : Nat := natOfDigitsFrom 0 cs

/-- The error message `parseDb` throws. -/
def dbErr (maybeDb : String) : String :=
  "unable to parse \"" ++ maybeDb ++ "\" as db path"

/-- Model of `parseDb` (`src/redis/options.ts`, lines 393-405): executes
the UNANCHORED regex `^\/0*(\d+)` against the path — a slash, greedily
consumed zeros, then at least one digit, with anything allowed to follow —
and feeds the capture to `parseInteger`.  The capture is the digit run
with its leading zeros stripped (backtracking leaves a single `0` when the
run is all zeros), so `parseInteger` always sees a plain decimal. -/
def parseDb (maybeDb : String) : Except String Nat :=
  match maybeDb.data with
  | [] => Except.error (dbErr maybeDb)
  | c :: rest =>
      if c = '/' then
        let digits := rest.takeWhile Char.isDigit
        if digits = [] then Except.error (dbErr maybeDb)
        else
          let capture :=
            match digits.dropWhile (fun x => x = '0') with
            | [] => ['0']
            | nz => nz
          parseInteger (String.mk capture)
      else Except.error (dbErr maybeDb)

/-- Model of `addDatabase` (`src/redis/options.ts`, lines 320-329): a path
of `"/"` leaves `db` untouched; any other path goes through `parseDb`. -/
def addDatabase (path : String) (iterating : BasicRedisTcpOptions) :
    Except String BasicRedisTcpOptions :=
  if path = "/" then Except.ok iterating
  else
    match parseDb path with
    | Except.ok db => Except.ok { iterating with db := some db }
    | Except.error e => Except.error e

/-- The db value the CLAIM describes, written from the claim's words: the
path must match the ANCHORED pattern `^\/0*(\d+)$` — slash, zeros, digits
and nothing after them — with the captured digits read in base 10. -/
def dbPathAnchoredValue (path : String) : Option Nat :=
  match path.data with
  | [] => none
  | c :: rest =>
      if c = '/' then
        if rest ≠ [] ∧ rest.all Char.isDigit then some (natOfDigits rest)
        else none
      else none

/-- The db value the code actually extracts: the longest digit run
immediately after the leading slash, ignoring whatever follows it. -/
def dbPathPrefixValue (path : String) : Option Nat :=
  match path.data with
  | [] => none
  | c :: rest =>
      if c = '/' then
        match rest.takeWhile Char.isDigit with
        | [] => none
        | digits => some (natOfDigits digits)
      else none

/-! ## AMQP URI parsing (`src/amqp/uri.ts` and the URI layer in
`src/amqp/broker.ts`) -/

/-- The options record `parseAmqpUri` builds (`src/amqp/options.ts`);
only the fields the claims speak about are carried. -/
structure AmqpOptions where
  protocol : String
  hostname : String
  port : Option Nat := none
  username : Option String := none
  password : Option String := none
  vhost : Option String := none
  deriving Repr, DecidableEq

/-- A JavaScript regex line terminator (what `.` refuses to match). -/
def isLineTerm (c : Char) : Bool :=
  c = '\n' || c = '\x0d' || c = '\u2028' || c = '\u2029'

/-- A character of the vhost capture class `[\w\d-.~%]` of `appendVhost`
(`src/amqp/uri.ts`, line 118): word characters, hyphen, dot, tilde and
percent (the `-` is literal because it follows a class escape). -/
def isVhostClassChar (c : Char) : Bool :=
  c.isAlphanum || c = '_' || c = '-' || c = '.' || c = '~' || c = '%'

/-- Split a reversed string at its first slash (the last slash of the
original): the slash-free stretch before it and the remainder after it.
When the drop result is non-empty its head is necessarily `'/'`. -/
def splitLastSlash (rev : List Char) : Option (List Char × List Char) :=
  match rev.dropWhile (fun c => c ≠ '/') with
  | _ :: rest => some (rev.takeWhile (fun c => c ≠ '/'), rest)
  | [] => none

/-- In the reversed string, the `[^\/]*` stretch must be followed by the
reversal of `://`. -/
def checkSep (rest2 : List Char) : Option (List Char) :=
  match rest2 with
  | '/' :: '/' :: ':' :: aRev => some aRev
  | _ => none

/-- Executes the regex `/^.+:\/\/[^\/]*\/([\w\d-.~%]*)$/` of `appendVhost`
against the raw URI and returns the capture.  Because the capture class
contains no `/`, the capture of any successful match is exactly the suffix
after the LAST slash; the slash-free stretch before that slash is the
`[^\/]*` part; it must be immediately preceded by `://`; and the `.+`
before the colon must be non-empty and free of line terminators.  The
backtracking of the regex engine cannot produce any other decomposition. -/
def appendVhostMatch (cs : List Char) : Option (List Char) :=
  (splitLastSlash cs.reverse).bind (fun pr =>
    (checkSep (pr.2.dropWhile (fun c => c ≠ '/'))).bind (fun aRev =>
      if aRev ≠ [] ∧ aRev.all (fun c => ¬ isLineTerm c) ∧
          pr.1.all isVhostClassChar then
        some pr.1.reverse
      else none))

/-- Value of a two-hex-digit escape. -/
def hexPairVal (a b : Char) : Option Nat :=
  match hexDigitVal a, hexDigitVal b with
  | some v1, some v2 => some (v1 * 16 + v2)
  | _, _ => none

/-- Number of UTF-8 continuation bytes demanded by a leading byte, `none`
for an invalid leading byte. -/
def utf8Need (b : Nat) : Option Nat :=
  if b < 0x80 then some 0
  else if 0xC2 ≤ b ∧ b ≤ 0xDF then some 1
  else if 0xE0 ≤ b ∧ b ≤ 0xEF then some 2
  else if 0xF0 ≤ b ∧ b ≤ 0xF4 then some 3
  else none

/-- A UTF-8 continuation byte. -/
def isContByte (b : Nat) : Bool := 0x80 ≤ b && b ≤ 0xBF

/-- Combine a leading byte and its continuation bytes into a Unicode scalar
value, rejecting overlong encodings and surrogates. -/
def utf8Combine (b : Nat) (conts : List Nat) : Option Nat :=
  match conts with
  | [] => if b < 0x80 then some b else none
  | [c1] => some ((b - 0xC0) * 64 + (c1 - 0x80))
  | [c1, c2] =>
      let cp := (b - 0xE0) * 4096 + (c1 - 0x80) * 64 + (c2 - 0x80)
      if 0x800 ≤ cp ∧ ¬ (0xD800 ≤ cp ∧ cp ≤ 0xDFFF) then some cp else none
  | [c1, c2, c3] =>
      let cp := (b - 0xF0) * 262144 + (c1 - 0x80) * 4096 +
        (c2 - 0x80) * 64 + (c3 - 0x80)
      if 0x10000 ≤ cp ∧ cp ≤ 0x10FFFF then some cp else none
  | _ => none

/-- Read one `%XX` escape from the front of the input. -/
def readEscByte (cs : List Char) : Option (Nat × List Char) :=
  match cs with
  | '%' :: a :: b :: rest =>
      match hexPairVal a b with
      | some v => some (v, rest)
      | none => none
  | _ => none

/-- Read `n` continuation-byte escapes. -/
def readConts : Nat → List Char → Option (List Nat × List Char)
  | 0, cs => some ([], cs)
  | n + 1, cs =>
      match readEscByte cs with
      | some (b, cs') =>
          if isContByte b then
            match readConts n cs' with
            | some (bs, cs'') => some (b :: bs, cs'')
            | none => none
          else none
      | none => none

/-- Fuel-indexed body of `decodeURIComponent`: unescaped characters pass
through; a `%XX` escape starts a UTF-8 sequence whose continuation bytes
must themselves be escapes; any malformed escape or invalid UTF-8 is a
`URIError`. -/
def percentDecodeGo : Nat → List Char → Option (List Char)
  | 0, [] => some []
  | 0, _ :: _ => none
  | _ + 1, [] => some []
  | fuel + 1, c :: rest =>
      if c = '%' then
        match readEscByte (c :: rest) with
        | none => none
        | some (v, rest') =>
            match utf8Need v with
            | none => none
            | some n =>
                match readConts n rest' with
                | none => none
                | some (conts, rest'') =>
                    match utf8Combine v conts with
                    | none => none
                    | some cp =>
                        match percentDecodeGo fuel rest'' with
                        | some out => some (Char.ofNat cp :: out)
                        | none => none
      else
        match percentDecodeGo fuel rest with
        | some out => some (c :: out)
        | none => none

/-- Model of the JavaScript builtin `decodeURIComponent`: `none` is the
thrown `URIError`. -/
def decodeURIComponent (s : String) : Option String :=
  (percentDecodeGo (s.data.length + 1) s.data).map String.mk

/-- Model of `appendVhost` (`src/amqp/uri.ts`, lines 117-130): when the
regex does not match, the options are returned untouched (no error); when
it matches, the capture is percent-decoded — a malformed escape makes
`decodeURIComponent` throw, which propagates — and stored as `vhost`. -/
def appendVhost (rawUri : String) (appending : AmqpOptions) :
    Except String AmqpOptions :=
  match appendVhostMatch rawUri.data with
  | none => Except.ok appending
  | some capture =>
      match decodeURIComponent (String.mk capture) with
      | some vhost => Except.ok { appending with vhost := some vhost }
      | none => Except.error "URIError: URI malformed"

/-- A character allowed after the first of a scheme: `[A-Za-z\d+.-]`. -/
def isSchemeChar (c : Char) : Bool :=
  c.isAlphanum || c = '+' || c = '.' || c = '-'

/-- The recognized Celery schemes (`Scheme` enum, `src/amqp/broker.ts`
second half, the generic URI module). -/
def SCHEMES : List String :=
  ["amqp", "amqps", "redis", "rediss", "sentinel", "sentinels",
   "redis+socket", "rediss+socket", "rpc", "rpcs"]

/-- Model of `getScheme`: match `^([A-Za-z][A-Za-z\d+.-]*):` at the start,
lowercase the capture and require it to be a recognized scheme. -/
def getScheme (rawUri : String) : Except String String :=
  match rawUri.data with
  | [] => Except.error "invalid uri"
  | c :: rest =>
      if c.isAlpha then
        match rest.dropWhile isSchemeChar with
        | ':' :: _ =>
            let scheme := String.mk
              ((c :: rest.takeWhile isSchemeChar).map Char.toLower)
            if SCHEMES.contains scheme then Except.ok scheme
            else Except.error "unrecognized scheme"
        | _ => Except.error "invalid uri"
      else Except.error "invalid uri"

/-- One label of `HOST_REGEX` (`src/amqp/broker.ts` second half): one to
63 characters, alphanumeric at both ends, alphanumeric or hyphen inside. -/
def validLabel (l : List Char) : Bool :=
  match l with
  | [] => false
  | c :: rest =>
      c.isAlphanum && (c :: rest).length ≤ 63 &&
      ((c :: rest).getLast (by simp) : Char).isAlphanum &&
      rest.all (fun x => x.isAlphanum || x = '-')

/-- Model of `HOST_REGEX`: dot-separated valid labels. -/
def hostRegexTest (s : String) : Bool :=
  (List.splitOn '.' s.data).all validLabel

/-- Model of `validateHost` (`src/amqp/broker.ts` second half). -/
def validateHost (maybeHost : String) : Except String String :=
  if hostRegexTest maybeHost then Except.ok maybeHost
  else Except.error "invalid host"

/-- `rpc`/`rpcs` are aliases resolved to `amqp`/`amqps` in the resulting
`protocol` (`src/amqp/uri.ts`, lines 45-54). -/
def protocolOf (scheme : String) : String :=
  if scheme = "rpc" then "amqp"
  else if scheme = "rpcs" then "amqps"
  else scheme

/-- Slice model of `parseAmqpUri` (`src/amqp/uri.ts`, lines 27-65) for
URIs without userinfo, port, query or fragment — the shapes claim C7
quantifies over.  It chains `getScheme`, the scheme allow-list, the
WHATWG-style authority extraction (the text between `://` and the next
`/`, `?` or `#`; an absent `//` or an empty authority leaves `addHost`
without a hostname and `parseAmqpUri` throws `ParseError`), `validateHost`
with the host lowered afterwards, and `appendVhost` on the raw string. -/
def parseAmqpUri (rawUri : String) : Except String AmqpOptions :=
  match getScheme rawUri with
  | Except.error e => Except.error e
  | Except.ok scheme =>
      if ¬ (scheme = "amqp" ∨ scheme = "amqps" ∨ scheme = "rpc" ∨
            scheme = "rpcs") then
        Except.error "unrecognized scheme"
      else
        match (rawUri.data.dropWhile (fun c => c ≠ ':')).drop 1 with
        | '/' :: '/' :: rest =>
            let authority := rest.takeWhile
              (fun c => c ≠ '/' ∧ c ≠ '?' ∧ c ≠ '#')
            if authority = [] then Except.error "missing authority"
            else
              match validateHost (String.mk authority) with
              | Except.error e => Except.error e
              | Except.ok host =>
                  appendVhost rawUri
                    { protocol := protocolOf scheme,
                      hostname := String.mk (host.data.map Char.toLower) }
        | _ => Except.error "missing authority"

/-! ## PromiseMap

Modelled from the spec: the container source `src/containers.ts` is not part
of the source tree (only its test suite is), so the keyed future registry is
modelled from spec section 4.1 and the `PromiseMap` tests.

A record is pending (carrying the identifiers of the waiters attached by
`get`), fulfilled with a value, or rejected with a reason.  Settling a
pending record delivers the outcome to every attached waiter; the deliveries
are returned explicitly so that theorems can speak about what each waiter
observed. -/

/-- State of one `PromiseMap` record. -/
inductive PState (V : Type) where
  | pending (waiters : List Nat)
  | fulfilled (v : V)
  | rejected (reason : String)
  deriving Repr, DecidableEq

/-- A `PromiseMap` is an association list from string keys to records. -/
abbrev PromiseMap (V : Type) : Type := List (String × PState V)

/-- What a waiter observes. -/
inductive Delivery (V : Type) where
  | value (v : V)
  | error (reason : String)
  deriving Repr, DecidableEq

/-- Outcome of a `PromiseMap.get` call: either the future is already
settled (the waiter observes the stored outcome at once) or the waiter is
attached to the pending record and will be notified on settlement. -/
inductive GetResult (V : Type) where
  | settledNow (d : Delivery V)
  | willNotify
  deriving Repr, DecidableEq

/-- Look a key up in the map. -/
def PromiseMap.lookup (m : PromiseMap V) (k : String) : Option (PState V) :=
  match m with
  | [] => none
  | (k', st) :: rest => if k' = k then some st else PromiseMap.lookup rest k

/-- Replace the state stored under a key (no-op when the key is absent). -/
def PromiseMap.setState (m : PromiseMap V) (k : String) (st : PState V) :
    PromiseMap V :=
  match m with
  | [] => []
  | (k', st') :: rest =>
      if k' = k then (k', st) :: rest
      else (k', st') :: PromiseMap.setState rest k st

/-- Modelled from the spec (section 4.1): `get(k)` returns a future for `k`,
creating a pending record if none exists.  `wid` identifies the waiter the
returned future belongs to. -/
def PromiseMap.get (m : PromiseMap V) (wid : Nat) (k : String) :
    PromiseMap V × GetResult V :=
  match PromiseMap.lookup m k with
  | none => (m ++ [(k, PState.pending [wid])], GetResult.willNotify)
  | some (PState.pending ws) =>
      (PromiseMap.setState m k (PState.pending (ws ++ [wid])), GetResult.willNotify)
  | some (PState.fulfilled v) => (m, GetResult.settledNow (Delivery.value v))
  | some (PState.rejected e) => (m, GetResult.settledNow (Delivery.error e))

/-- Modelled from the spec (section 4.1): `resolve(k, v)` settles `k` and
returns whether the record was created by this call; resolving an
already-settled key overwrites the stored value without re-notifying.
The third component lists the waiters notified with `v` by this call. -/
def PromiseMap.resolve (m : PromiseMap V) (k : String) (v : V) :
    PromiseMap V × Bool × List Nat :=
  match PromiseMap.lookup m k with
  | none => (m ++ [(k, PState.fulfilled v)], true, [])
  | some (PState.pending ws) => (PromiseMap.setState m k (PState.fulfilled v), false, ws)
  | some (PState.fulfilled _) => (PromiseMap.setState m k (PState.fulfilled v), false, [])
  | some (PState.rejected _) => (PromiseMap.setState m k (PState.fulfilled v), false, [])

/-- Modelled from the spec (section 4.1): `rejectAll(e)` rejects every
currently-pending key with `e`, leaving settled keys intact.  The second
component lists the waiters notified with the rejection. -/
def PromiseMap.rejectAll (m : PromiseMap V) (e : String) :
    PromiseMap V × List Nat :=
  match m with
  | [] => ([], [])
  | (k, PState.pending ws) :: rest =>
      let r := PromiseMap.rejectAll rest e
      ((k, PState.rejected e) :: r.1, ws ++ r.2)
  | (k, st) :: rest =>
      let r := PromiseMap.rejectAll rest e
      ((k, st) :: r.1, r.2)

/-- View of one record after a `rejectAll e` pass: pending records become
rejections with reason `e`; settled records are untouched. -/
def rejectPendingView (st? : Option (PState V)) (e : String) : Option (PState V) :=
  match st? with
  | some (PState.pending _) => some (PState.rejected e)
  | st => st

/-- A key is settled when it holds a fulfilled or rejected record. -/
def PromiseMap.isSettled (m : PromiseMap V) (k : String) : Bool :=
  match PromiseMap.lookup m k with
  | some (PState.fulfilled _) => true
  | some (PState.rejected _) => true
  | _ => false

/-! ## Futures and timeouts

`createTimeoutPromise` lives in `src/utility.ts`, which is not part of the
source tree (only its test suite is); it is modelled from spec section 4.10.
The outcome of a future is described relative to some reference instant. -/

/-- Eventual outcome of a future, relative to a reference instant. -/
inductive FutOutcome (α : Type) where
  | resolvesAt (t : Nat) (v : α)
  | rejectsAt (t : Nat) (reason : String)
  | neverSettles
  deriving Repr, DecidableEq

/-- Shift an outcome later by `t` time units. -/
def FutOutcome.shift (t : Nat) : FutOutcome α → FutOutcome α
  | FutOutcome.resolvesAt u v => FutOutcome.resolvesAt (t + u) v
  | FutOutcome.rejectsAt u e => FutOutcome.rejectsAt (t + u) e
  | FutOutcome.neverSettles => FutOutcome.neverSettles

/-- Modelled from the spec (section 4.10): `createTimeoutPromise(p, ms?)`
returns `p` unchanged when `ms` is `undefined` and otherwise races `p`
against a timer that rejects after `ms`.  A settlement at the timer's own
instant wins the race: the timer is a macrotask while promise settlement is
a microtask. -/
def createTimeoutPromise (p : FutOutcome α) (ms : Option Nat) : FutOutcome α :=
  match ms with
  | none => p
  | some ms =>
      match p with
      | FutOutcome.resolvesAt t v =>
          if t ≤ ms then FutOutcome.resolvesAt t v
          else FutOutcome.rejectsAt ms "timeout"
      | FutOutcome.rejectsAt t e =>
          if t ≤ ms then FutOutcome.rejectsAt t e
          else FutOutcome.rejectsAt ms "timeout"
      | FutOutcome.neverSettles => FutOutcome.rejectsAt ms "timeout"

/-! ## AMQP RPC backend (`src/amqp/backend.ts`) -/

/-- Raw AMQP message as delivered to the backend's consumer: the
`correlationId` property and the payload bytes. -/
structure AmqpMessage where
  correlationId : String
  content : List Nat
  deriving Repr, DecidableEq

/-- Model of `RpcBackend.onMessage` (`src/amqp/backend.ts`, lines 258-269):
a `null` message (consumer cancelled by the broker) rejects all pending
entries with `"RabbitMQ cancelled consumer"`; otherwise the entry keyed by
`msg.properties.correlationId` is resolved with the raw message. -/
def RpcBackend.onMessage (promises : PromiseMap AmqpMessage)
    (maybeMessage : Option AmqpMessage) : PromiseMap AmqpMessage :=
  match maybeMessage with
  | none => (PromiseMap.rejectAll promises "RabbitMQ cancelled consumer").1
  | some message =>
      (PromiseMap.resolve promises message.correlationId message).1

/-- Model of the promise-map step of `RpcBackend.end`
(`src/amqp/backend.ts`, line 134): every pending entry is rejected with
`"disconnecting"` before the consumer is cancelled and the pool destroyed. -/
def RpcBackend.endPromises (promises : PromiseMap AmqpMessage) :
    PromiseMap AmqpMessage :=
  (PromiseMap.rejectAll promises "disconnecting").1

/-- Model of the control flow of `RpcBackend.get` (`src/amqp/backend.ts`,
lines 91-99).  `arrival` is the instant at which the `PromiseMap` entry for
`taskId` settles together with the raw message, or `none` when no result
message ever arrives.  The body first `await`s the entry — suspending
without any time bound — and only then wraps the already-available parsed
value with `createTimeoutPromise`, so the timer races a value that is
already settled. -/
def RpcBackend.getOutcome (arrival : Option (Nat × AmqpMessage))
    (timeout : Option Nat) : FutOutcome AmqpMessage :=
  match arrival with
  | none => FutOutcome.neverSettles
  | some (t, msg) =>
      FutOutcome.shift t (createTimeoutPromise (FutOutcome.resolvesAt 0 msg) timeout)

/-- The behaviour claimed by the spec for `RpcBackend.get`: the pending
entry future itself is wrapped with `createTimeoutPromise`, so that the
timer runs from the call instant. -/
def RpcBackend.getOutcomeSpec (arrival : Option (Nat × AmqpMessage))
    (timeout : Option Nat) : FutOutcome AmqpMessage :=
  createTimeoutPromise
    (match arrival with
     | none => FutOutcome.neverSettles
     | some (t, msg) => FutOutcome.resolvesAt t msg)
    timeout

/-! ## ResourcePool

Modelled from the spec: the container source `src/containers.ts` is not part
of the source tree (only its test suite is), so the bounded borrow/return
pool is modelled from spec section 4.3 and the `ResourcePool` tests.
Resources are identified by the order the factory created them in (the test
factory does exactly that). -/

/-- State of a `ResourcePool`. -/
structure ResourcePool where
  capacity : Nat
  created : Nat
  destroyed : Nat
  unused : List Nat
  inUse : List Nat
  waiters : Nat
  draining : Bool
  deriving Repr, DecidableEq

/-- A freshly constructed pool owns nothing. -/
def ResourcePool.make (capacity : Nat) : ResourcePool :=
  { capacity := capacity, created := 0, destroyed := 0, unused := [],
    inUse := [], waiters := 0, draining := false }

/-- Total `create` calls minus total `destroy` calls. -/
def ResourcePool.numOwned (p : ResourcePool) : Nat := p.created - p.destroyed

/-- Resources sitting in the unused deque. -/
def ResourcePool.numUnused (p : ResourcePool) : Nat := p.unused.length

/-- Resources currently held by borrowers. -/
def ResourcePool.numInUse (p : ResourcePool) : Nat := p.inUse.length

/-- Modelled from the spec (section 4.3): `get` hands out the FIFO-oldest
unused resource, creates a fresh one while below capacity, and otherwise
blocks the caller (queued as a waiter).  After `destroyAll` further `get`s
are refused. -/
def ResourcePool.getResource (p : ResourcePool) : ResourcePool :=
  if p.draining then p
  else
    match p.unused with
    | r :: rest => { p with unused := rest, inUse := p.inUse ++ [r] }
    | [] =>
        if p.numOwned < p.capacity then
          { p with created := p.created + 1, inUse := p.inUse ++ [p.created] }
        else
          { p with waiters := p.waiters + 1 }

/-- Modelled from the spec (section 4.3): `return` fails on a resource the
pool did not issue.  An issued resource is handed to the oldest blocked
waiter if any, destroyed at once when `destroyAll` already ran, and pushed
onto the unused deque otherwise. -/
def ResourcePool.returnResource (p : ResourcePool) (r : Nat) :
    Except String ResourcePool :=
  if r ∈ p.inUse then
    let remaining := p.inUse.erase r
    if p.draining then
      Except.ok { p with inUse := remaining, destroyed := p.destroyed + 1 }
    else if p.waiters > 0 then
      Except.ok { p with inUse := remaining ++ [r], waiters := p.waiters - 1 }
    else
      Except.ok { p with inUse := remaining, unused := p.unused ++ [r] }
  else
    Except.error "resource was not created by this pool"

/-- Modelled from the spec (section 4.3): `destroyAll` refuses further
`get`s, destroys every unused resource immediately and defers destruction
of in-use resources until their `return`. -/
def ResourcePool.destroyAll (p : ResourcePool) : ResourcePool :=
  { p with draining := true, destroyed := p.destroyed + p.unused.length,
           unused := [] }

/-- Modelled from the spec (section 4.3): `use(fn)` is a scoped
`get`-then-`return`; the resource goes back to the pool on the success and
the failure path alike.  When the pool is exhausted the caller queues like
any other `get`, and the scoped return happens once it is served. -/
def ResourcePool.useResource (p : ResourcePool) : ResourcePool :=
  if p.draining then p
  else
    match p.unused with
    | r :: rest =>
        match ResourcePool.returnResource
            { p with unused := rest, inUse := p.inUse ++ [r] } r with
        | Except.ok p' => p'
        | Except.error _ => p
    | [] =>
        if p.numOwned < p.capacity then
          match ResourcePool.returnResource
              { p with created := p.created + 1,
                       inUse := p.inUse ++ [p.created] } p.created with
          | Except.ok p' => p'
          | Except.error _ => p
        else
          { p with waiters := p.waiters + 1 }

/-- Modelled from the spec (section 4.3): `returnAfter(p, r)` returns `r`
when `p` settles; its effect on the pool state is that of `return`. -/
def ResourcePool.returnAfter (p : ResourcePool) (r : Nat) :
    Except String ResourcePool :=
  ResourcePool.returnResource p r

/-- One pool operation. -/
inductive PoolOp where
  | get
  | ret (r : Nat)
  | use
  | returnAfter (r : Nat)
  | destroyAll
  deriving Repr, DecidableEq

/-- Apply one operation; a failed `return` leaves the state unchanged. -/
def ResourcePool.step (p : ResourcePool) : PoolOp → ResourcePool
  | PoolOp.get => ResourcePool.getResource p
  | PoolOp.ret r =>
      match ResourcePool.returnResource p r with
      | Except.ok p' => p'
      | Except.error _ => p
  | PoolOp.use => ResourcePool.useResource p
  | PoolOp.returnAfter r =>
      match ResourcePool.returnAfter p r with
      | Except.ok p' => p'
      | Except.error _ => p
  | PoolOp.destroyAll => ResourcePool.destroyAll p

/-- Run a sequence of operations from a fresh pool. -/
def ResourcePool.run (capacity : Nat) (ops : List PoolOp) : ResourcePool :=
  ops.foldl ResourcePool.step (ResourcePool.make capacity)

/-- The bookkeeping invariant of spec section 3: destruction never outruns
creation, `numOwned = numInUse + numUnused`, and `numOwned ≤ capacity`. -/
def ResourcePool.Inv (p : ResourcePool) : Prop :=
  p.destroyed ≤ p.created ∧
  ResourcePool.numOwned p = ResourcePool.numInUse p + ResourcePool.numUnused p ∧
  ResourcePool.numOwned p ≤ p.capacity

/-- Every resource the pool has issued carries an identifier below the
creation counter; anything else is foreign to the pool. -/
def ResourcePool.IdsBound (p : ResourcePool) : Prop :=
  (∀ x ∈ p.inUse, x < p.created) ∧ (∀ x ∈ p.unused, x < p.created)

/- --------------------- parseUri authority ports --------------------- -/

/-- ECMAScript `ExponentPart` closing a string numeric literal: nothing,
or `e`/`E`, an optional sign, then at least one digit consuming the whole
rest of the input. -/
def matchExpPart : List Char → Bool
  | [] => true
  | e :: rest =>
      if e = 'e' ∨ e = 'E' then
        let rest2 :=
          match rest with
          | s :: r2 => if s = '+' ∨ s = '-' then r2 else s :: r2
          | [] => []
        !(rest2.takeWhile Char.isDigit).isEmpty &&
          (rest2.dropWhile Char.isDigit).isEmpty
      else false

/-- ECMAScript `StrUnsignedDecimalLiteral`: `Infinity`, or decimal digits
with an optional fraction and exponent, or a bare fraction with an
exponent. -/
def matchUnsignedDecimal (cs : List Char) : Bool :=
  if cs = "Infinity".data then true
  else
    let intPart := cs.takeWhile Char.isDigit
    match cs.dropWhile Char.isDigit with
    | '.' :: r2 =>
        (!intPart.isEmpty || !(r2.takeWhile Char.isDigit).isEmpty) &&
          matchExpPart (r2.dropWhile Char.isDigit)
    | r1 => !intPart.isEmpty && matchExpPart r1

/-- An optionally signed `StrUnsignedDecimalLiteral`. -/
def matchSignedDecimal : List Char → Bool
  | [] => false
  | s :: r =>
      if s = '+' ∨ s = '-' then matchUnsignedDecimal r
      else matchUnsignedDecimal (s :: r)

/-- ECMAScript `StrNumericLiteral`, the grammar behind `ToNumber` on
strings: after trimming, the empty string converts to zero, `0x`/`0o`/`0b`
select unsigned radix-16/8/2 integers, and everything else must be a
signed decimal literal; any string outside the grammar converts to NaN. -/
def matchStrNumericLiteral : List Char → Bool
  | [] => true
  | [c] => matchSignedDecimal [c]
  | c1 :: x :: rest =>
      if c1 = '0' ∧ (x = 'x' ∨ x = 'X') then
        !rest.isEmpty && rest.all (fun c => (hexDigitVal c).isSome)
      else if c1 = '0' ∧ (x = 'o' ∨ x = 'O') then
        !rest.isEmpty && rest.all (fun c => decide ('0' ≤ c) && decide (c ≤ '7'))
      else if c1 = '0' ∧ (x = 'b' ∨ x = 'B') then
        !rest.isEmpty && rest.all (fun c => c = '0' || c = '1')
      else matchSignedDecimal (c1 :: x :: rest)

/-- Whether the JS unary plus (`ToNumber`) on a string yields NaN: the
trimmed string fails the `StrNumericLiteral` grammar. -/
def jsToNumberIsNaN (s : String) : Bool :=
  !matchStrNumericLiteral (jsTrim s.data)

/-- Value of a digit run in a base, accumulator style (callers only pass
runs whose characters are valid digits of the base). -/
def digitsVal (base : Nat) : List Char → Nat → Nat
  | [], acc => acc
  | c :: rest, acc =>
      digitsVal base rest (acc * base + (digitInBase base c).getD 0)

/-- The longest valid-digit run of the base at the head of the input, as a
signed number; no digits at all is NaN (`none`). -/
def jsParseIntFrom (base : Nat) (sign : Int) (cs : List Char) : Option Int :=
  let ds := cs.takeWhile (fun c => (digitInBase base c).isSome)
  if ds.isEmpty then none else some (sign * (digitsVal base ds 0 : Nat))

/-- After the sign of `Number.parseInt`: a `0x`/`0X` prefix switches to
base 16, anything else parses in base 10. -/
def jsParseIntRadix (sign : Int) (cs : List Char) : Option Int :=
  match cs with
  | c0 :: x :: r2 =>
      if c0 = '0' ∧ (x = 'x' ∨ x = 'X') then jsParseIntFrom 16 sign r2
      else jsParseIntFrom 10 sign (c0 :: x :: r2)
  | _ => jsParseIntFrom 10 sign cs

/-- The sign step of `Number.parseInt`, after trimming. -/
def jsParseIntTrimmed : List Char → Option Int
  | [] => none
  | c :: r =>
      if c = '-' then jsParseIntRadix (-1) r
      else if c = '+' then jsParseIntRadix 1 r
      else jsParseIntRadix 1 (c :: r)

/-- JS `Number.parseInt(s)` with no radix argument: trim, an optional
sign, an optional hex prefix, then the longest digit run. -/
def jsParseInt (s : String) : Option Int :=
  jsParseIntTrimmed (jsTrim s.data)

/-- `parsePort` (`src/amqp/broker.ts`, lines 525-533): `+maybePort`
followed by a `Number.isNaN` check throwing `ParseError`, then
`Number.parseInt(maybePort)` with no radix — which can itself be NaN
(modelled `none`) without an error being raised. -/
def parsePort (maybePort : String) : Except String (Option Int) :=
  if jsToNumberIsNaN maybePort then
    Except.error ("could not parse \"" ++ maybePort ++ "\" as port")
  else Except.ok (jsParseInt maybePort)

/-- Modelled from the WHATWG URL standard (the `URL` builtin `parseUri`
calls): the port state of the URL parser accepts only ASCII digits and
fails the whole parse on anything else before a terminator; a non-empty
digit buffer must be at most 65535; the stored port is the numeric value,
and the `port` getter serializes it in shortest base 10, so leading zeros
are normalized away.  `none` is a parse failure (`URL.parse` returns
`null`), `some none` an absent or empty port, `some (some ds)` the
serialized port string. -/
def urlPortString (portStr : List Char) : Option (Option (List Char)) :=
  if portStr.isEmpty then some none
  else if portStr.all Char.isDigit then
    if natOfDigits portStr ≤ 65535 then
      if (portStr.dropWhile (fun c => c = '0')).isEmpty then some (some ['0'])
      else some (some (portStr.dropWhile (fun c => c = '0')))
    else none
  else none

/-- Slice of `parseUri` (`src/amqp/broker.ts`, lines 292-316) for the
authority port, with `addHostUserPassAndPort` (lines 446-460): a `null`
from `URL.parse` throws `ParseError`; a falsy `uri.port` adds no port
field; otherwise the port field is `parsePort(uri.port)` (note `"0"` is a
non-empty string, hence truthy). -/
def parseUriPort (portStr : String) : Except String (Option Int) :=
  match urlPortString portStr.data with
  | none => Except.error ("Celery.Uri.parse: string \"" ++ portStr ++
      "\" is not parsable")
  | some none => Except.ok none
  | some (some ds) => parsePort (String.mk ds)

/- ------------------------- packer pipeline --------------------------- -/

mutual

/-- JSON values flowing through the packer.  Numbers are modelled as
integers (every number in the repository's packer fixtures is an
integer); object members keep insertion order, as JS objects do.  Item
and member sequences are their own inductives so that all functions over
values stay structurally recursive (and hence evaluate). -/
inductive JsonValue where
  | null : JsonValue
  | bool : Bool → JsonValue
  | num : Int → JsonValue
  | str : String → JsonValue
  | arr : JsonItems → JsonValue
  | obj : JsonMembers → JsonValue

/-- A sequence of array items. -/
inductive JsonItems where
  | nil : JsonItems
  | cons : JsonValue → JsonItems → JsonItems

/-- A sequence of object members. -/
inductive JsonMembers where
  | nil : JsonMembers
  | cons : String → JsonValue → JsonMembers → JsonMembers

end

/-- Concatenation of item sequences. -/
def JsonItems.append : JsonItems → JsonItems → JsonItems
  | .nil, ys => ys
  | .cons v xs, ys => .cons v (JsonItems.append xs ys)

/-- Concatenation of member sequences. -/
def JsonMembers.append : JsonMembers → JsonMembers → JsonMembers
  | .nil, ys => ys
  | .cons k v xs, ys => .cons k v (JsonMembers.append xs ys)

/-- Decimal digits of a natural number, most significant first;
fuel-driven so the definition stays structural. -/
def natToDecGo : Nat → Nat → List Char
  | 0, _ => []
  | fuel + 1, n =>
      if n < 10 then [Char.ofNat (48 + n)]
      else natToDecGo fuel (n / 10) ++ [Char.ofNat (48 + n % 10)]

/-- Decimal digits of a natural number. -/
def natToDec (n : Nat) : List Char := natToDecGo (n + 1) n

/-- `JSON.stringify` rendering of an integer. -/
def intToDec (n : Int) : List Char :=
  if n < 0 then '-' :: natToDec n.natAbs else natToDec n.natAbs

/-- Lowercase hexadecimal digit character. -/
def hexDigitChar (n : Nat) : Char :=
  if n < 10 then Char.ofNat (48 + n) else Char.ofNat (87 + n)

/-- `JSON.stringify` escaping of one character: quote and backslash get
a backslash escape, the five named control characters their short forms,
any other control character a `\u00XX` escape, everything else is
emitted raw. -/
def escapeChar (c : Char) : List Char :=
  if c = '"' then ['\\', '"']
  else if c = '\\' then ['\\', '\\']
  else if c = '\n' then ['\\', 'n']
  else if c = '\x0d' then ['\\', 'r']
  else if c = '\t' then ['\\', 't']
  else if c = '\x08' then ['\\', 'b']
  else if c = '\x0c' then ['\\', 'f']
  else if c.toNat < 32 then
    ['\\', 'u', '0', '0', hexDigitChar (c.toNat / 16), hexDigitChar (c.toNat % 16)]
  else [c]

/-- `JSON.stringify` escaping of a character sequence. -/
def escapeStr : List Char → List Char
  | [] => []
  | c :: cs => escapeChar c ++ escapeStr cs

mutual

/-- Modelled from the spec (section 4.4) and the JSON.stringify builtin:
the serializer renders values with no added whitespace, object members in
insertion order, and JSON string escaping. -/
def jsonStringify : JsonValue → List Char
  | .null => ("null" : String).data
  | .bool true => ("true" : String).data
  | .bool false => ("false" : String).data
  | .num n => intToDec n
  | .str s => '"' :: (escapeStr s.data ++ ['"'])
  | .arr items => '[' :: (stringifyItems items ++ [']'])
  | .obj members => '{' :: (stringifyMembers members ++ ['}'])

def stringifyItems : JsonItems → List Char
  | .nil => []
  | .cons v rest =>
      match rest with
      | .nil => jsonStringify v
      | _ => jsonStringify v ++ ',' :: stringifyItems rest

def stringifyMembers : JsonMembers → List Char
  | .nil => []
  | .cons k v rest =>
      match rest with
      | .nil => '"' :: (escapeStr k.data ++ '"' :: ':' :: jsonStringify v)
      | _ =>
          ('"' :: (escapeStr k.data ++ '"' :: ':' :: jsonStringify v)) ++
            ',' :: stringifyMembers rest

end

/-- Appending a single item and then a sequence is appending the item
consed onto the sequence (a structurally recursive proof). -/
def JsonItems.append_snoc : (acc : JsonItems) → (v : JsonValue) →
    (X : JsonItems) →
    (acc.append (JsonItems.cons v JsonItems.nil)).append X =
      acc.append (JsonItems.cons v X)
  | .nil, _, _ => rfl
  | .cons w acc', v, X =>
      congrArg (JsonItems.cons w) (JsonItems.append_snoc acc' v X)

/-- Member-sequence version of the snoc-append identity. -/
def JsonMembers.append_snoc : (acc : JsonMembers) → (k : String) →
    (v : JsonValue) → (X : JsonMembers) →
    (acc.append (JsonMembers.cons k v JsonMembers.nil)).append X =
      acc.append (JsonMembers.cons k v X)
  | .nil, _, _, _ => rfl
  | .cons k2 v2 acc', k, v, X =>
      congrArg (JsonMembers.cons k2 v2) (JsonMembers.append_snoc acc' k v X)

/-- The JSON whitespace characters. -/
def jsonWs (c : Char) : Bool :=
  c = ' ' ∨ c = '\t' ∨ c = '\n' ∨ c = '\x0d'

/-- Skip JSON whitespace. -/
def skipWs (cs : List Char) : List Char := cs.dropWhile jsonWs

/-- Consume an expected literal character sequence. -/
def dropLit : List Char → List Char → Option (List Char)
  | [], cs => some cs
  | _ :: _, [] => none
  | l :: ls, c :: cs => if c = l then dropLit ls cs else none

/-- One JSON string escape, after the backslash. -/
def unescape : List Char → Option (Char × List Char)
  | [] => none
  | e :: r =>
      if e = '"' then some ('"', r)
      else if e = '\\' then some ('\\', r)
      else if e = '/' then some ('/', r)
      else if e = 'n' then some ('\n', r)
      else if e = 'r' then some ('\x0d', r)
      else if e = 't' then some ('\t', r)
      else if e = 'b' then some ('\x08', r)
      else if e = 'f' then some ('\x0c', r)
      else if e = 'u' then
        match r with
        | h1 :: h2 :: h3 :: h4 :: r2 =>
            (hexDigitVal h1).bind fun a =>
              (hexDigitVal h2).bind fun b =>
                (hexDigitVal h3).bind fun c =>
                  (hexDigitVal h4).map fun d =>
                    (Char.ofNat (((a * 16 + b) * 16 + c) * 16 + d), r2)
        | _ => none
      else none

/-- JSON string body parser: characters up to the closing quote, with
escapes; one fuel unit per produced character. -/
def parseStr : Nat → List Char → Option (List Char × List Char)
  | 0, _ => none
  | fuel + 1, cs =>
      match cs with
      | [] => none
      | c :: cs' =>
          if c = '"' then some ([], cs')
          else if c = '\\' then
            (unescape cs').bind fun dc =>
              (parseStr fuel dc.2).map fun p => (dc.1 :: p.1, p.2)
          else
            (parseStr fuel cs').map fun p => (c :: p.1, p.2)

mutual

/-- Modelled from the `JSON.parse` builtin, restricted to the grammar
`JSON.stringify` emits (integral numbers; the digit-run number parse is
lax about leading zeros, which canonical renderings never produce). -/
def parseVal : Nat → List Char → Option (JsonValue × List Char)
  | 0, _ => none
  | Nat.succ fuel, cs0 =>
      match skipWs cs0 with
      | [] => none
      | c :: cs =>
          if c = 'n' then
            (dropLit ['u', 'l', 'l'] cs).map fun r => (JsonValue.null, r)
          else if c = 't' then
            (dropLit ['r', 'u', 'e'] cs).map fun r => (JsonValue.bool true, r)
          else if c = 'f' then
            (dropLit ['a', 'l', 's', 'e'] cs).map fun r =>
              (JsonValue.bool false, r)
          else if c = '"' then
            (parseStr fuel cs).map fun p => (JsonValue.str (String.mk p.1), p.2)
          else if c = '[' then
            match skipWs cs with
            | [] => none
            | d :: r => if d = ']' then some (JsonValue.arr JsonItems.nil, r)
                        else parseArrRest fuel cs JsonItems.nil
          else if c = '{' then
            match skipWs cs with
            | [] => none
            | d :: r => if d = '}' then some (JsonValue.obj JsonMembers.nil, r)
                        else parseObjRest fuel cs JsonMembers.nil
          else if c = '-' then
            if (cs.takeWhile Char.isDigit).isEmpty then none
            else some
              (JsonValue.num (-(natOfDigits (cs.takeWhile Char.isDigit) : Int)),
               cs.dropWhile Char.isDigit)
          else if c.isDigit then
            some (JsonValue.num (natOfDigits ((c :: cs).takeWhile Char.isDigit) : Int),
              (c :: cs).dropWhile Char.isDigit)
          else none

def parseArrRest : Nat → List Char → JsonItems →
    Option (JsonValue × List Char)
  | 0, _, _ => none
  | Nat.succ fuel, cs, acc =>
      (parseVal fuel cs).bind fun vr =>
        match skipWs vr.2 with
        | [] => none
        | d :: r2 =>
            if d = ',' then
              parseArrRest fuel r2
                (acc.append (JsonItems.cons vr.1 JsonItems.nil))
            else if d = ']' then
              some (JsonValue.arr
                (acc.append (JsonItems.cons vr.1 JsonItems.nil)), r2)
            else none

def parseObjRest : Nat → List Char → JsonMembers →
    Option (JsonValue × List Char)
  | 0, _, _ => none
  | Nat.succ fuel, cs, acc =>
      match skipWs cs with
      | [] => none
      | q :: r =>
          if q = '"' then
            (parseStr fuel r).bind fun kr =>
              match skipWs kr.2 with
              | [] => none
              | col :: r3 =>
                  if col = ':' then
                    (parseVal fuel r3).bind fun vr =>
                      match skipWs vr.2 with
                      | [] => none
                      | d :: r5 =>
                          if d = ',' then
                            parseObjRest fuel r5 (acc.append
                              (JsonMembers.cons (String.mk kr.1) vr.1
                                JsonMembers.nil))
                          else if d = '}' then
                            some (JsonValue.obj (acc.append
                              (JsonMembers.cons (String.mk kr.1) vr.1
                                JsonMembers.nil)), r5)
                          else none
                  else none
          else none

end

/-- Top-level `JSON.parse`: one value, then only trailing whitespace. -/
def jsonParse (cs : List Char) : Option JsonValue :=
  match parseVal (cs.length + 1) cs with
  | some (v, r) => if (skipWs r).isEmpty then some v else none
  | none => none

/-- UTF-8 bytes of one scalar value. -/
def utf8EncodeChar (c : Char) : List Nat :=
  let n := c.toNat
  if n < 128 then [n]
  else if n < 2048 then [192 + n / 64, 128 + n % 64]
  else if n < 65536 then [224 + n / 4096, 128 + (n / 64) % 64, 128 + n % 64]
  else [240 + n / 262144, 128 + (n / 4096) % 64, 128 + (n / 64) % 64,
    128 + n % 64]

/-- UTF-8 bytes of a character sequence (`Buffer.from(s, "utf8")`). -/
def utf8Encode : List Char → List Nat
  | [] => []
  | c :: cs => utf8EncodeChar c ++ utf8Encode cs

/-- The U+FFFD replacement character. -/
def repChar : Char := Char.ofNat 65533

/-- `buffer.toString("utf8")` never fails: ill-formed sequences are
replaced leniently (modelled with the replacement character; decoded
scalar values outside the valid range fall back through `Char.ofNat`). -/
def utf8DecodeGo : Nat → List Nat → List Char
  | 0, _ => []
  | _ + 1, [] => []
  | fuel + 1, b :: bs =>
      if b < 128 then Char.ofNat b :: utf8DecodeGo fuel bs
      else if b < 192 then repChar :: utf8DecodeGo fuel bs
      else if b < 224 then
        match bs with
        | b1 :: bs2 =>
            if 128 ≤ b1 ∧ b1 < 192 then
              Char.ofNat ((b - 192) * 64 + (b1 - 128)) :: utf8DecodeGo fuel bs2
            else repChar :: utf8DecodeGo fuel bs
        | [] => [repChar]
      else if b < 240 then
        match bs with
        | b1 :: b2 :: bs3 =>
            if (128 ≤ b1 ∧ b1 < 192) ∧ (128 ≤ b2 ∧ b2 < 192) then
              Char.ofNat (((b - 224) * 64 + (b1 - 128)) * 64 + (b2 - 128)) ::
                utf8DecodeGo fuel bs3
            else repChar :: utf8DecodeGo fuel bs
        | _ => [repChar]
      else
        match bs with
        | b1 :: b2 :: b3 :: bs4 =>
            if (128 ≤ b1 ∧ b1 < 192) ∧ (128 ≤ b2 ∧ b2 < 192) ∧
                (128 ≤ b3 ∧ b3 < 192) then
              Char.ofNat ((((b - 240) * 64 + (b1 - 128)) * 64 + (b2 - 128)) * 64 +
                  (b3 - 128)) :: utf8DecodeGo fuel bs4
            else repChar :: utf8DecodeGo fuel bs
        | _ => [repChar]

/-- Total UTF-8 decoding of a byte sequence. -/
def utf8DecodeTotal (bs : List Nat) : List Char := utf8DecodeGo (bs.length + 1) bs

/-- Character of a base64 alphabet index. -/
def b64Char (n : Nat) : Char :=
  if n < 26 then Char.ofNat (65 + n)
  else if n < 52 then Char.ofNat (97 + (n - 26))
  else if n < 62 then Char.ofNat (48 + (n - 52))
  else if n = 62 then '+'
  else '/'

/-- Standard base64 with `=` padding (`buffer.toString("base64")`). -/
def b64Encode : List Nat → List Char
  | [] => []
  | [b0] => [b64Char (b0 / 4), b64Char ((b0 % 4) * 16), '=', '=']
  | [b0, b1] =>
      [b64Char (b0 / 4), b64Char ((b0 % 4) * 16 + b1 / 16),
       b64Char ((b1 % 16) * 4), '=']
  | b0 :: b1 :: b2 :: bs =>
      b64Char (b0 / 4) :: b64Char ((b0 % 4) * 16 + b1 / 16) ::
        b64Char ((b1 % 16) * 4 + b2 / 64) :: b64Char (b2 % 64) :: b64Encode bs

/-- Alphabet index of a base64 character. -/
def b64Val (c : Char) : Option Nat :=
  if 65 ≤ c.toNat ∧ c.toNat ≤ 90 then some (c.toNat - 65)
  else if 97 ≤ c.toNat ∧ c.toNat ≤ 122 then some (c.toNat - 71)
  else if 48 ≤ c.toNat ∧ c.toNat ≤ 57 then some (c.toNat + 4)
  else if c = '+' then some 62
  else if c = '/' then some 63
  else none

/-- Base64 decoding (`Buffer.from(s, "base64")`) of well-padded input. -/
def b64Decode : List Char → Option (List Nat)
  | [] => some []
  | [c0, c1, '=', '='] =>
      (b64Val c0).bind fun v0 =>
        (b64Val c1).map fun v1 => [v0 * 4 + v1 / 16]
  | [c0, c1, c2, '='] =>
      (b64Val c0).bind fun v0 =>
        (b64Val c1).bind fun v1 =>
          (b64Val c2).map fun v2 =>
            [v0 * 4 + v1 / 16, (v1 % 16) * 16 + v2 / 4]
  | c0 :: c1 :: c2 :: c3 :: rest =>
      (b64Val c0).bind fun v0 =>
        (b64Val c1).bind fun v1 =>
          (b64Val c2).bind fun v2 =>
            (b64Val c3).bind fun v3 =>
              (b64Decode rest).map fun bs =>
                (v0 * 4 + v1 / 16) :: ((v1 % 16) * 16 + v2 / 4) ::
                  ((v2 % 4) * 64 + v3) :: bs
  | _ => none

/-- Modelled from the spec (section 4.4): a serializer stage turns a value
into bytes and back. -/
structure SerializerImpl where
  serialize : JsonValue → List Nat
  deserialize : List Nat → Option JsonValue

/-- Modelled from the spec (section 4.4): a compressor stage transforms
bytes reversibly. -/
structure CompressorImpl where
  compress : List Nat → List Nat
  decompress : List Nat → Option (List Nat)

/-- Modelled from the spec (section 4.4): an encoder stage turns bytes
into a transport string and back. -/
structure EncoderImpl where
  encode : List Nat → List Char
  decode : List Char → Option (List Nat)

/-- Modelled from the spec (section 4.4): `pack` is the ordered
composition serializer, then compressor, then encoder; `unpack` the
inverse chain. -/
structure Packer where
  serializer : SerializerImpl
  compressor : CompressorImpl
  encoder : EncoderImpl

def Packer.pack (P : Packer) (v : JsonValue) : List Char :=
  P.encoder.encode (P.compressor.compress (P.serializer.serialize v))

def Packer.unpack (P : Packer) (s : List Char) : Option JsonValue :=
  (P.encoder.decode s).bind fun compressed =>
    (P.compressor.decompress compressed).bind fun bytes =>
      P.serializer.deserialize bytes

/-- `createJsonSerializer` (`src/index.ts`, lines 106-110):
`serialize = Buffer.from(JSON.stringify(data), "utf8")`,
`deserialize = JSON.parse(data.toString("utf8"))`. -/
def jsonSerializerImpl : SerializerImpl :=
  { serialize := fun v => utf8Encode (jsonStringify v),
    deserialize := fun bs => jsonParse (utf8DecodeTotal bs) }

/-- The Identity compressor is a pass-through. -/
def identityCompressor : CompressorImpl :=
  { compress := id, decompress := some }

/-- The Base64 encoder. -/
def base64Encoder : EncoderImpl :=
  { encode := b64Encode, decode := b64Decode }

/-- The Plaintext encoder decodes the bytes as UTF-8 text. -/
def plaintextEncoder : EncoderImpl :=
  { encode := utf8DecodeTotal, decode := fun s => some (utf8Encode s) }

/-- Modelled from the spec (section 4.4): the default packer is
Json/Identity/Base64. -/
def createDefaultPacker : Packer :=
  { serializer := jsonSerializerImpl,
    compressor := identityCompressor,
    encoder := base64Encoder }

/-- The fixed fixture value of the packer tests
(`test/packer/index.spec.ts`, lines 47-55). -/
def dataJson : JsonValue :=
  JsonValue.obj
    (JsonMembers.cons "arr"
      (JsonValue.arr (JsonItems.cons (JsonValue.num 0)
        (JsonItems.cons (JsonValue.num 5)
          (JsonItems.cons (JsonValue.num 10) JsonItems.nil))))
      (JsonMembers.cons "num" (JsonValue.num 15)
        (JsonMembers.cons "obj"
          (JsonValue.obj (JsonMembers.cons "bar" (JsonValue.num 10)
            (JsonMembers.cons "foo" (JsonValue.num 5) JsonMembers.nil)))
          (JsonMembers.cons "str" (JsonValue.str "foo") JsonMembers.nil))))

/- ===================================================================== -/
/- SUPPORTING LEMMAS                                                     -/
/- ===================================================================== -/

theorem digit_not_whitespace {c : Char} (h : c.isDigit = true) :
    c.isWhitespace = false := by
  cases hw : c.isWhitespace with
  | false => rfl
  | true =>
      exfalso
      have h4 : ((c = ' ' ∨ c = '\t') ∨ c = '\x0d') ∨ c = '\n' := by
        simpa [Char.isWhitespace] using hw
      rcases h4 with ((h'|h')|h')|h' <;> subst h' <;> exact absurd h (by decide)

theorem digit_toNat_bounds {c : Char} (h : c.isDigit = true) :
    48 ≤ c.toNat ∧ c.toNat ≤ 57 := by
  simp [Char.isDigit] at h
  exact h

theorem dropWhile_eq_self_of_none {p : Char → Bool} {cs : List Char}
    (h : ∀ c ∈ cs, p c = false) : cs.dropWhile p = cs := by
  cases cs with
  | nil => rfl
  | cons c t =>
      rw [List.dropWhile_cons]
      simp [h c (List.mem_cons_self c t)]

theorem jsTrim_digits {cs : List Char} (h : ∀ c ∈ cs, c.isDigit = true) :
    jsTrim cs = cs := by
  unfold jsTrim
  rw [dropWhile_eq_self_of_none (fun c hc => digit_not_whitespace (h c hc))]
  rw [dropWhile_eq_self_of_none (fun c hc =>
    digit_not_whitespace (h c (List.mem_reverse.mp hc)))]
  exact List.reverse_reverse cs

theorem digitInBase_ten {c : Char} (h : c.isDigit = true) :
    digitInBase 10 c = some (c.toNat - 48) := by
  obtain ⟨h1, h2⟩ := digit_toNat_bounds h
  have hv : c.toNat - 48 < 10 := by omega
  unfold digitInBase
  rw [hexDigitVal, if_pos h]
  exact if_pos hv

theorem parseDigitsGo_ten {cs : List Char} (h : ∀ c ∈ cs, c.isDigit = true) :
    ∀ a, parseDigitsGo 10 cs a = some (natOfDigitsFrom a cs) := by
  induction cs with
  | nil => intro a; rfl
  | cons c t ih =>
      intro a
      have hc := h c (List.mem_cons_self c t)
      have ht : ∀ x ∈ t, x.isDigit = true := fun x hx =>
        h x (List.mem_cons_of_mem c hx)
      show (match digitInBase 10 c with
        | some v => parseDigitsGo 10 t (a * 10 + v)
        | none => none) = some (natOfDigitsFrom (a * 10 + (c.toNat - 48)) t)
      rw [digitInBase_ten hc]
      exact ih ht _

theorem natOfDigitsFrom_zeros {zs : List Char} (h : ∀ c ∈ zs, c = '0') :
    ∀ t, natOfDigitsFrom 0 (zs ++ t) = natOfDigitsFrom 0 t := by
  induction zs with
  | nil => intro t; rfl
  | cons z t' ih =>
      intro t
      have hz := h z (List.mem_cons_self z t')
      subst hz
      have ht' : ∀ c ∈ t', c = '0' := fun c hc =>
        h c (List.mem_cons_of_mem _ hc)
      rw [List.cons_append]
      have h0 : natOfDigitsFrom 0 ('0' :: (t' ++ t)) =
          natOfDigitsFrom 0 (t' ++ t) := by
        show natOfDigitsFrom (0 * 10 + ('0'.toNat - 48)) (t' ++ t) =
          natOfDigitsFrom 0 (t' ++ t)
        have hz0 : 0 * 10 + ('0'.toNat - 48) = 0 := by decide
        rw [hz0]
      rw [h0]
      exact ih ht' t

theorem dropWhile_head_false {p : Char → Bool} {cs : List Char} {x : Char}
    {xs : List Char} (h : cs.dropWhile p = x :: xs) : p x = false := by
  induction cs with
  | nil => simp [List.dropWhile] at h
  | cons c t ih =>
      rw [List.dropWhile_cons] at h
      by_cases hp : p c
      · rw [if_pos hp] at h
        exact ih h
      · rw [if_neg hp] at h
        cases h
        exact Bool.not_eq_true _ |>.mp hp

theorem parseIntegerCore_decimal {cs : List Char}
    (hne : cs ≠ []) (hd : ∀ c ∈ cs, c.isDigit = true)
    (hnz : cs.head? ≠ some '0' ∨ cs = ['0']) :
    parseIntegerCore cs = Except.ok (natOfDigits cs) := by
  cases cs with
  | nil => exact absurd rfl hne
  | cons c t =>
      rcases hnz with hnz | hz
      · have hc : ¬ c = '0' := by
          intro h'
          exact hnz (by rw [h']; rfl)
        simp only [parseIntegerCore]
        rw [if_neg hc]
        simp only [parseDigits, if_neg (List.cons_ne_nil c t)]
        rw [parseDigitsGo_ten hd 0]
        rfl
      · cases hz
        rfl

theorem parseInteger_digits {cs : List Char}
    (hd : ∀ c ∈ cs, c.isDigit = true) :
    parseInteger (String.mk cs) = parseIntegerCore cs := by
  unfold parseInteger
  rw [show (String.mk cs).data = cs from rfl, jsTrim_digits hd]

theorem parseDb_eq_nil {path : String} (h : path.data = []) :
    parseDb path = Except.error (dbErr path) := by
  simp [parseDb, h]

theorem parseDb_eq_notslash {path : String} {c : Char} {rest : List Char}
    (h : path.data = c :: rest) (hc : ¬ c = '/') :
    parseDb path = Except.error (dbErr path) := by
  simp [parseDb, h, hc]

theorem parseDb_eq_nodigits {path : String} {rest : List Char}
    (h : path.data = '/' :: rest)
    (hdig : rest.takeWhile Char.isDigit = []) :
    parseDb path = Except.error (dbErr path) := by
  simp [parseDb, h, hdig]

theorem parseDb_eq_digits_zeros {path : String} {rest : List Char} {d : Char}
    {t : List Char} (h : path.data = '/' :: rest)
    (hdig : rest.takeWhile Char.isDigit = d :: t)
    (hdrop : (d :: t).dropWhile (fun x => x = '0') = []) :
    parseDb path = parseInteger (String.mk ['0']) := by
  simp [parseDb, h, hdig, hdrop]

theorem parseDb_eq_digits_nz {path : String} {rest : List Char} {d z : Char}
    {t zs : List Char} (h : path.data = '/' :: rest)
    (hdig : rest.takeWhile Char.isDigit = d :: t)
    (hdrop : (d :: t).dropWhile (fun x => x = '0') = z :: zs) :
    parseDb path = parseInteger (String.mk (z :: zs)) := by
  simp [parseDb, h, hdig, hdrop]

theorem dbPathPrefixValue_eq_nil {path : String} (h : path.data = []) :
    dbPathPrefixValue path = none := by
  simp [dbPathPrefixValue, h]

theorem dbPathPrefixValue_eq_notslash {path : String} {c : Char}
    {rest : List Char} (h : path.data = c :: rest) (hc : ¬ c = '/') :
    dbPathPrefixValue path = none := by
  simp [dbPathPrefixValue, h, hc]

theorem dbPathPrefixValue_eq_nodigits {path : String} {rest : List Char}
    (h : path.data = '/' :: rest)
    (hdig : rest.takeWhile Char.isDigit = []) :
    dbPathPrefixValue path = none := by
  simp [dbPathPrefixValue, h, hdig]

theorem dbPathPrefixValue_eq_digits {path : String} {rest : List Char}
    {d : Char} {t : List Char} (h : path.data = '/' :: rest)
    (hdig : rest.takeWhile Char.isDigit = d :: t) :
    dbPathPrefixValue path = some (natOfDigits (d :: t)) := by
  simp [dbPathPrefixValue, h, hdig]

theorem parseDb_eq (path : String) :
    parseDb path =
      match dbPathPrefixValue path with
      | some n => Except.ok n
      | none => Except.error (dbErr path) := by
  cases hd : path.data with
  | nil => rw [parseDb_eq_nil hd, dbPathPrefixValue_eq_nil hd]
  | cons c rest =>
      by_cases hc : c = '/'
      · subst hc
        cases hdig : rest.takeWhile Char.isDigit with
        | nil =>
            rw [parseDb_eq_nodigits hd hdig,
              dbPathPrefixValue_eq_nodigits hd hdig]
        | cons d t =>
            rw [dbPathPrefixValue_eq_digits hd hdig]
            have hall : ∀ x ∈ d :: t, x.isDigit = true := by
              intro x hx
              exact List.mem_takeWhile_imp (hdig ▸ hx)
            cases hdrop : (d :: t).dropWhile (fun x => x = '0') with
            | nil =>
                have hzeros : ∀ x ∈ d :: t, x = '0' := by
                  intro x hx
                  simpa using List.dropWhile_eq_nil_iff.mp hdrop x hx
                have hval : natOfDigits (d :: t) = 0 := by
                  have := natOfDigitsFrom_zeros hzeros []
                  simpa [natOfDigits] using this
                rw [parseDb_eq_digits_zeros hd hdig hdrop, hval]
                rw [parseInteger_digits (by
                  intro c hc'
                  simp at hc'
                  subst hc'
                  decide)]
                rfl
            | cons z zs =>
                rw [parseDb_eq_digits_nz hd hdig hdrop]
                have hsub : ∀ x ∈ z :: zs, x ∈ d :: t := by
                  intro x hx
                  exact (List.dropWhile_suffix (fun x => x = '0')).subset
                    (hdrop ▸ hx)
                have hallz : ∀ x ∈ z :: zs, x.isDigit = true := fun x hx =>
                  hall x (hsub x hx)
                have hheadz : ¬ (z = '0') := by
                  have := dropWhile_head_false hdrop
                  simpa using this
                have hcap : parseIntegerCore (z :: zs) =
                    Except.ok (natOfDigits (z :: zs)) := by
                  refine parseIntegerCore_decimal (List.cons_ne_nil z zs) hallz
                    (Or.inl ?_)
                  intro h'
                  simp at h'
                  exact hheadz h'
                have hzeros : ∀ x ∈ (d :: t).takeWhile (fun x => x = '0'),
                    x = '0' := fun x hx => by
                  simpa using List.mem_takeWhile_imp hx
                have hvals : natOfDigits (d :: t) = natOfDigits (z :: zs) := by
                  have hdecomp : (d :: t).takeWhile (fun x => x = '0') ++
                      (z :: zs) = d :: t := by
                    rw [← hdrop]
                    exact List.takeWhile_append_dropWhile _ _
                  calc natOfDigits (d :: t)
                      = natOfDigits ((d :: t).takeWhile (fun x => x = '0') ++
                          (z :: zs)) := by rw [hdecomp]
                    _ = natOfDigits (z :: zs) := by
                        have := natOfDigitsFrom_zeros hzeros (z :: zs)
                        simpa [natOfDigits] using this
                rw [parseInteger_digits hallz, hcap, hvals]
      · rw [parseDb_eq_notslash hd hc, dbPathPrefixValue_eq_notslash hd hc]

theorem takeWhile_append_all {p : Char → Bool} {l1 : List Char}
    (l2 : List Char) (h : ∀ c ∈ l1, p c = true) :
    (l1 ++ l2).takeWhile p = l1 ++ l2.takeWhile p := by
  induction l1 with
  | nil => rfl
  | cons c t ih =>
      rw [List.cons_append, List.takeWhile_cons,
        if_pos (h c (List.mem_cons_self c t)), List.cons_append,
        ih (fun x hx => h x (List.mem_cons_of_mem c hx))]

theorem dropWhile_append_all {p : Char → Bool} {l1 : List Char}
    (l2 : List Char) (h : ∀ c ∈ l1, p c = true) :
    (l1 ++ l2).dropWhile p = l2.dropWhile p := by
  induction l1 with
  | nil => rfl
  | cons c t ih =>
      rw [List.cons_append, List.dropWhile_cons,
        if_pos (h c (List.mem_cons_self c t)),
        ih (fun x hx => h x (List.mem_cons_of_mem c hx))]

theorem vhostClass_ne_slash {c : Char} (h : isVhostClassChar c = true) :
    ¬ c = '/' := by
  intro h'
  subst h'
  exact absurd h (by decide)

theorem percentDecodeGo_cons_ne (f : Nat) {c : Char} (rest : List Char)
    (hc : ¬ c = '%') :
    percentDecodeGo (f + 1) (c :: rest) =
      match percentDecodeGo f rest with
      | some out => some (c :: out)
      | none => none := by
  simp [percentDecodeGo, hc]

theorem percentDecodeGo_id : ∀ (fuel : Nat) (cs : List Char),
    cs.length < fuel → (∀ c ∈ cs, ¬ c = '%') →
    percentDecodeGo fuel cs = some cs := by
  intro fuel
  induction fuel with
  | zero => intro cs h; omega
  | succ f ih =>
      intro cs hlen hpc
      cases cs with
      | nil => rfl
      | cons c rest =>
          rw [percentDecodeGo_cons_ne f rest (hpc c (List.mem_cons_self c rest))]
          rw [ih rest (by simpa using Nat.lt_of_succ_lt_succ hlen)
            (fun x hx => hpc x (List.mem_cons_of_mem c hx))]

theorem decodeURIComponent_id {cs : List Char} (h : ∀ c ∈ cs, ¬ c = '%') :
    decodeURIComponent (String.mk cs) = some (String.mk cs) := by
  unfold decodeURIComponent
  rw [show (String.mk cs).data = cs from rfl,
    percentDecodeGo_id (cs.length + 1) cs (Nat.lt_succ_self _) h]
  rfl

theorem splitLastSlash_at {pre : List Char} (tail : List Char)
    (hpre : ∀ c ∈ pre, (decide (c ≠ '/')) = true) :
    splitLastSlash (pre ++ '/' :: tail) = some (pre, tail) := by
  unfold splitLastSlash
  rw [takeWhile_append_all _ hpre, List.takeWhile_cons, if_neg (by decide),
    List.append_nil]
  rw [dropWhile_append_all _ hpre, List.dropWhile_cons, if_neg (by decide)]

theorem splitLastSlash_shape {rev cRev rest1 : List Char}
    (h : splitLastSlash rev = some (cRev, rest1)) :
    rev = cRev ++ '/' :: rest1 := by
  unfold splitLastSlash at h
  cases hdw : rev.dropWhile (fun c => c ≠ '/') with
  | nil =>
      rw [hdw] at h
      exact Option.noConfusion h
  | cons c rest =>
      rw [hdw] at h
      have hc : c = '/' := by
        have := dropWhile_head_false hdw
        simpa using this
      have h12 : rev.takeWhile (fun c => c ≠ '/') = cRev ∧ rest = rest1 := by
        simpa using h
      obtain ⟨h1, h2⟩ := h12
      subst hc
      subst h1
      subst h2
      rw [← hdw]
      exact (List.takeWhile_append_dropWhile _ _).symm

theorem checkSep_sep (aRev : List Char) :
    checkSep ('/' :: '/' :: ':' :: aRev) = some aRev := rfl

theorem checkSep_one_slash (xs : List Char) :
    checkSep ('/' :: ':' :: xs) = none := rfl

theorem appendVhostMatch_with_vhost {schemeL hostL segL : List Char}
    (hs : schemeL ≠ []) (hsl : ∀ c ∈ schemeL, isLineTerm c = false)
    (hhost : ∀ c ∈ hostL, (decide (c ≠ '/')) = true)
    (hseg : ∀ c ∈ segL, isVhostClassChar c = true) :
    appendVhostMatch
        (schemeL ++ ':' :: '/' :: '/' :: (hostL ++ '/' :: segL)) =
      some segL := by
  have hsegp : ∀ c ∈ segL.reverse, (decide (c ≠ '/')) = true := by
    intro c hc
    simpa using vhostClass_ne_slash (hseg c (List.mem_reverse.mp hc))
  have hhostp : ∀ c ∈ hostL.reverse, (decide (c ≠ '/')) = true := by
    intro c hc
    exact hhost c (List.mem_reverse.mp hc)
  have hrev : (schemeL ++ ':' :: '/' :: '/' :: (hostL ++ '/' :: segL)).reverse =
      segL.reverse ++ '/' :: (hostL.reverse ++
        '/' :: '/' :: ':' :: schemeL.reverse) := by
    simp [List.reverse_append]
  unfold appendVhostMatch
  rw [hrev, splitLastSlash_at _ hsegp]
  simp only [Option.some_bind]
  rw [dropWhile_append_all _ hhostp, List.dropWhile_cons, if_neg (by decide),
    checkSep_sep]
  simp only [Option.some_bind]
  have hcond : schemeL.reverse ≠ [] ∧
      schemeL.reverse.all (fun c => ¬ isLineTerm c) ∧
      segL.reverse.all isVhostClassChar := by
    refine ⟨by simpa using hs, ?_, ?_⟩
    · rw [List.all_eq_true]
      intro c hc
      simp [hsl c (List.mem_reverse.mp hc)]
    · rw [List.all_eq_true]
      intro c hc
      exact hseg c (List.mem_reverse.mp hc)
  rw [if_pos hcond, List.reverse_reverse]

theorem appendVhostMatch_no_slash {schemeL hostL : List Char}
    (hhost : ∀ c ∈ hostL, (decide (c ≠ '/')) = true) :
    appendVhostMatch (schemeL ++ ':' :: '/' :: '/' :: hostL) = none := by
  have hhostp : ∀ c ∈ hostL.reverse, (decide (c ≠ '/')) = true := by
    intro c hc
    exact hhost c (List.mem_reverse.mp hc)
  have hrev : (schemeL ++ ':' :: '/' :: '/' :: hostL).reverse =
      hostL.reverse ++ '/' :: ('/' :: ':' :: schemeL.reverse) := by
    simp [List.reverse_append]
  unfold appendVhostMatch
  rw [hrev, splitLastSlash_at _ hhostp]
  simp only [Option.some_bind]
  rw [List.dropWhile_cons, if_neg (by decide), checkSep_one_slash]
  rfl

theorem appendVhostMatch_some_shape {cs capture : List Char}
    (h : appendVhostMatch cs = some capture) :
    (∃ prefixPart, cs = prefixPart ++ '/' :: capture) ∧
      capture.all isVhostClassChar = true := by
  unfold appendVhostMatch at h
  cases hsp : splitLastSlash cs.reverse with
  | none =>
      rw [hsp, Option.none_bind] at h
      exact Option.noConfusion h
  | some pr =>
      obtain ⟨cRev, rest1⟩ := pr
      rw [hsp, Option.some_bind] at h
      cases hck : checkSep (rest1.dropWhile (fun c => c ≠ '/')) with
      | none =>
          rw [hck, Option.none_bind] at h
          exact Option.noConfusion h
      | some aRev =>
          rw [hck, Option.some_bind] at h
          by_cases hcond : aRev ≠ [] ∧
              aRev.all (fun c => ¬ isLineTerm c) ∧
              cRev.all isVhostClassChar
          · rw [if_pos hcond] at h
            have hcap : capture = cRev.reverse := by
              injection h with h'
              exact h'.symm
            subst hcap
            have hshape := splitLastSlash_shape hsp
            refine ⟨⟨rest1.reverse, ?_⟩, ?_⟩
            · calc cs = cs.reverse.reverse := (List.reverse_reverse cs).symm
                _ = (cRev ++ '/' :: rest1).reverse := by rw [hshape]
                _ = rest1.reverse ++ '/' :: cRev.reverse := by simp
            · rw [List.all_reverse]
              exact hcond.2.2
          · rw [if_neg hcond] at h
            exact Option.noConfusion h

theorem alpha_ne_colon {c : Char} (h : c.isAlpha = true) :
    (decide (c ≠ ':')) = true := by
  simp only [decide_eq_true_eq, ne_eq]
  intro h'
  subst h'
  exact absurd h (by decide)

theorem schemeChar_ne_colon {x : Char} (h : isSchemeChar x = true) :
    (decide (x ≠ ':')) = true := by
  simp only [decide_eq_true_eq, ne_eq]
  intro h'
  subst h'
  exact absurd h (by decide)

theorem hostChar_authority {x : Char}
    (h : (x.isAlphanum || x = '-' || x = '.') = true) :
    (decide (x ≠ '/' ∧ x ≠ '?' ∧ x ≠ '#')) = true := by
  simp only [Bool.or_eq_true, decide_eq_true_eq] at h
  simp only [decide_eq_true_eq, ne_eq]
  rcases h with (h | h) | h
  · refine ⟨?_, ?_, ?_⟩ <;>
      · intro h'
        subst h'
        exact absurd h (by decide)
  · subst h
    exact ⟨by decide, by decide, by decide⟩
  · subst h
    exact ⟨by decide, by decide, by decide⟩

theorem hostChar_ne_slash {x : Char}
    (h : (x.isAlphanum || x = '-' || x = '.') = true) :
    (decide (x ≠ '/')) = true := by
  have := hostChar_authority h
  simp only [decide_eq_true_eq] at this ⊢
  exact this.1

theorem getScheme_concat {c : Char} {body tailL : List Char} {s : String}
    (hdata : s.data = c :: (body ++ ':' :: tailL))
    (halpha : c.isAlpha = true)
    (hbody : ∀ x ∈ body, isSchemeChar x = true) :
    getScheme s =
      if SCHEMES.contains (String.mk ((c :: body).map Char.toLower)) then
        Except.ok (String.mk ((c :: body).map Char.toLower))
      else Except.error "unrecognized scheme" := by
  have hdw : (body ++ ':' :: tailL).dropWhile isSchemeChar = ':' :: tailL := by
    rw [dropWhile_append_all _ hbody, List.dropWhile_cons, if_neg (by decide)]
  have htw : (body ++ ':' :: tailL).takeWhile isSchemeChar = body := by
    rw [takeWhile_append_all _ hbody, List.takeWhile_cons, if_neg (by decide),
      List.append_nil]
  simp only [getScheme, hdata, hdw, htw, halpha, if_true]

theorem parseAmqpUri_eq {raw schemeStr host : String} {c : Char}
    {body tail : List Char}
    (hdata : raw.data = c :: (body ++ ':' :: ('/' :: '/' :: (host.data ++ tail))))
    (halpha : c.isAlpha = true)
    (hbody : ∀ x ∈ body, isSchemeChar x = true)
    (hlower : String.mk ((c :: body).map Char.toLower) = schemeStr)
    (hmem : SCHEMES.contains schemeStr = true)
    (hallow : schemeStr = "amqp" ∨ schemeStr = "amqps" ∨ schemeStr = "rpc" ∨
      schemeStr = "rpcs")
    (hchars : ∀ x ∈ host.data, (x.isAlphanum || x = '-' || x = '.') = true)
    (hhostne : host.data ≠ [])
    (hreg : hostRegexTest host = true)
    (htail : tail = [] ∨ ∃ t, tail = '/' :: t) :
    parseAmqpUri raw =
      appendVhost raw
        { protocol := protocolOf schemeStr,
          hostname := String.mk (host.data.map Char.toLower) } := by
  have hgs : getScheme raw = Except.ok schemeStr := by
    rw [getScheme_concat hdata halpha hbody, hlower, if_pos hmem]
  have hdrop : (raw.data.dropWhile (fun x => x ≠ ':')).drop 1 =
      '/' :: '/' :: (host.data ++ tail) := by
    rw [hdata, List.dropWhile_cons, if_pos (alpha_ne_colon halpha),
      dropWhile_append_all _ (fun x hx => schemeChar_ne_colon (hbody x hx)),
      List.dropWhile_cons, if_neg (by decide)]
    rfl
  have hauth : (host.data ++ tail).takeWhile
      (fun x => x ≠ '/' ∧ x ≠ '?' ∧ x ≠ '#') = host.data := by
    rw [takeWhile_append_all _ (fun x hx => hostChar_authority (hchars x hx))]
    rcases htail with rfl | ⟨t, rfl⟩
    · simp
    · rw [List.takeWhile_cons, if_neg (by decide), List.append_nil]
  have hval : validateHost (String.mk host.data) = Except.ok host := by
    unfold validateHost
    rw [if_pos (show hostRegexTest (String.mk host.data) = true from hreg)]
  have hc1 : (¬ (schemeStr = "amqp" ∨ schemeStr = "amqps" ∨
      schemeStr = "rpc" ∨ schemeStr = "rpcs")) = False :=
    eq_false (not_not_intro hallow)
  have hc2 : (host.data = []) = False := eq_false hhostne
  simp only [parseAmqpUri, hgs, hdrop, hauth, hval, hc1, hc2, if_false]

theorem parseAmqpUri_shapes {schemeStr host seg : String} {c : Char}
    {body : List Char}
    (hsd : schemeStr.data = c :: body)
    (halpha : c.isAlpha = true)
    (hbody : ∀ x ∈ body, isSchemeChar x = true)
    (hlower : String.mk ((c :: body).map Char.toLower) = schemeStr)
    (hmem : SCHEMES.contains schemeStr = true)
    (hallow : schemeStr = "amqp" ∨ schemeStr = "amqps" ∨ schemeStr = "rpc" ∨
      schemeStr = "rpcs")
    (hlineterm : ∀ x ∈ c :: body, isLineTerm x = false)
    (hreg : hostRegexTest host = true)
    (hchars : ∀ x ∈ host.data, (x.isAlphanum || x = '-' || x = '.') = true)
    (hhostne : host.data ≠ [])
    (hseg : ∀ x ∈ seg.data, isVhostClassChar x = true)
    (hpct : ∀ x ∈ seg.data, ¬ x = '%') :
    parseAmqpUri (schemeStr ++ "://" ++ host) =
      Except.ok { protocol := protocolOf schemeStr,
                  hostname := String.mk (host.data.map Char.toLower) } ∧
    parseAmqpUri (schemeStr ++ "://" ++ host ++ "/") =
      Except.ok { protocol := protocolOf schemeStr,
                  hostname := String.mk (host.data.map Char.toLower),
                  vhost := some "" } ∧
    parseAmqpUri (schemeStr ++ "://" ++ host ++ "/" ++ seg) =
      Except.ok { protocol := protocolOf schemeStr,
                  hostname := String.mk (host.data.map Char.toLower),
                  vhost := some seg } := by
  have hsep : ("://" : String).data = [':', '/', '/'] := rfl
  have hsl : ("/" : String).data = ['/'] := rfl
  have hslash : ∀ x ∈ host.data, (decide (x ≠ '/')) = true := fun x hx =>
    hostChar_ne_slash (hchars x hx)
  refine ⟨?_, ?_, ?_⟩
  · have hd1 : (schemeStr ++ "://" ++ host).data =
        c :: (body ++ ':' :: ('/' :: '/' :: (host.data ++ ([] : List Char)))) := by
      simp [String.data_append, hsd, hsep]
    have hd1' : (schemeStr ++ "://" ++ host).data =
        (c :: body) ++ ':' :: '/' :: '/' :: host.data := by
      simp [String.data_append, hsd, hsep]
    rw [parseAmqpUri_eq hd1 halpha hbody hlower hmem hallow hchars hhostne hreg
      (Or.inl rfl)]
    have hm1 : appendVhostMatch (schemeStr ++ "://" ++ host).data = none := by
      rw [hd1']
      exact appendVhostMatch_no_slash hslash
    simp only [appendVhost, hm1]
  · have hd2 : (schemeStr ++ "://" ++ host ++ "/").data =
        c :: (body ++ ':' :: ('/' :: '/' :: (host.data ++ ['/']))) := by
      simp [String.data_append, hsd, hsep, hsl]
    have hd2' : (schemeStr ++ "://" ++ host ++ "/").data =
        (c :: body) ++ ':' :: '/' :: '/' :: (host.data ++ '/' :: []) := by
      simp [String.data_append, hsd, hsep, hsl]
    rw [parseAmqpUri_eq hd2 halpha hbody hlower hmem hallow hchars hhostne hreg
      (Or.inr ⟨[], rfl⟩)]
    have hm2 : appendVhostMatch (schemeStr ++ "://" ++ host ++ "/").data =
        some [] := by
      rw [hd2']
      exact appendVhostMatch_with_vhost (by simp) hlineterm hslash
        (by intro x hx; simp at hx)
    have hdec2 : decodeURIComponent (String.mk ([] : List Char)) = some "" := rfl
    simp only [appendVhost, hm2, hdec2]
  · have hd3 : (schemeStr ++ "://" ++ host ++ "/" ++ seg).data =
        c :: (body ++ ':' :: ('/' :: '/' :: (host.data ++ '/' :: seg.data))) := by
      simp [String.data_append, hsd, hsep, hsl]
    have hd3' : (schemeStr ++ "://" ++ host ++ "/" ++ seg).data =
        (c :: body) ++ ':' :: '/' :: '/' :: (host.data ++ '/' :: seg.data) := by
      simp [String.data_append, hsd, hsep, hsl]
    rw [parseAmqpUri_eq hd3 halpha hbody hlower hmem hallow hchars hhostne hreg
      (Or.inr ⟨seg.data, rfl⟩)]
    have hm3 : appendVhostMatch
        (schemeStr ++ "://" ++ host ++ "/" ++ seg).data = some seg.data := by
      rw [hd3']
      exact appendVhostMatch_with_vhost (by simp) hlineterm hslash hseg
    have hdec3 : decodeURIComponent (String.mk seg.data) =
        some (String.mk seg.data) := decodeURIComponent_id hpct
    simp only [appendVhost, hm3, hdec3]

theorem PromiseMap.lookup_append_none {m : PromiseMap V} {k : String}
    (h : PromiseMap.lookup m k = none) (st : PState V) :
    PromiseMap.lookup (m ++ [(k, st)]) k = some st := by
  induction m with
  | nil => simp [PromiseMap.lookup]
  | cons hd tl ih =>
      obtain ⟨k', st'⟩ := hd
      by_cases hk : k' = k
      · simp [PromiseMap.lookup, hk] at h
      · simp [PromiseMap.lookup, hk] at h ⊢
        exact ih h

theorem PromiseMap.lookup_setState_self {m : PromiseMap V} {k : String}
    {st' : PState V} (h : PromiseMap.lookup m k = some st') (st : PState V) :
    PromiseMap.lookup (PromiseMap.setState m k st) k = some st := by
  induction m with
  | nil => simp [PromiseMap.lookup] at h
  | cons hd tl ih =>
      obtain ⟨k', st₀⟩ := hd
      by_cases hk : k' = k
      · simp [PromiseMap.lookup, PromiseMap.setState, hk]
      · simp [PromiseMap.lookup, PromiseMap.setState, hk] at h ⊢
        exact ih h

theorem PromiseMap.lookup_rejectAll (m : PromiseMap V) (e : String)
    (k : String) :
    PromiseMap.lookup (PromiseMap.rejectAll m e).1 k =
      rejectPendingView (PromiseMap.lookup m k) e := by
  induction m with
  | nil => simp [PromiseMap.lookup, PromiseMap.rejectAll, rejectPendingView]
  | cons hd tl ih =>
      obtain ⟨k', st⟩ := hd
      cases st with
      | pending ws =>
          by_cases hk : k' = k <;>
            simp [PromiseMap.lookup, PromiseMap.rejectAll, rejectPendingView,
              hk, ih]
      | fulfilled v =>
          by_cases hk : k' = k <;>
            simp [PromiseMap.lookup, PromiseMap.rejectAll, rejectPendingView,
              hk, ih]
      | rejected e' =>
          by_cases hk : k' = k <;>
            simp [PromiseMap.lookup, PromiseMap.rejectAll, rejectPendingView,
              hk, ih]

theorem ResourcePool.getResource_eq_draining {p : ResourcePool}
    (hd : p.draining = true) : ResourcePool.getResource p = p := by
  simp [ResourcePool.getResource, hd]

theorem ResourcePool.getResource_eq_cons {p : ResourcePool} {r : Nat}
    {rest : List Nat} (hd : p.draining = false) (hu : p.unused = r :: rest) :
    ResourcePool.getResource p =
      { p with unused := rest, inUse := p.inUse ++ [r] } := by
  simp [ResourcePool.getResource, hd, hu]

theorem ResourcePool.getResource_eq_create {p : ResourcePool}
    (hd : p.draining = false) (hu : p.unused = [])
    (hlt : ResourcePool.numOwned p < p.capacity) :
    ResourcePool.getResource p =
      { p with created := p.created + 1, inUse := p.inUse ++ [p.created] } := by
  simp [ResourcePool.getResource, hd, hu, hlt]

theorem ResourcePool.getResource_eq_block {p : ResourcePool}
    (hd : p.draining = false) (hu : p.unused = [])
    (hlt : ¬ ResourcePool.numOwned p < p.capacity) :
    ResourcePool.getResource p = { p with waiters := p.waiters + 1 } := by
  simp [ResourcePool.getResource, hd, hu, hlt]

theorem ResourcePool.useResource_eq_draining {p : ResourcePool}
    (hd : p.draining = true) : ResourcePool.useResource p = p := by
  simp [ResourcePool.useResource, hd]

theorem ResourcePool.useResource_eq_cons {p : ResourcePool} {r : Nat}
    {rest : List Nat} (hd : p.draining = false) (hu : p.unused = r :: rest) :
    ResourcePool.useResource p =
      match ResourcePool.returnResource
          { p with unused := rest, inUse := p.inUse ++ [r] } r with
      | Except.ok p' => p'
      | Except.error _ => p := by
  simp [ResourcePool.useResource, hd, hu]

theorem ResourcePool.useResource_eq_create {p : ResourcePool}
    (hd : p.draining = false) (hu : p.unused = [])
    (hlt : ResourcePool.numOwned p < p.capacity) :
    ResourcePool.useResource p =
      match ResourcePool.returnResource
          { p with created := p.created + 1,
                   inUse := p.inUse ++ [p.created] } p.created with
      | Except.ok p' => p'
      | Except.error _ => p := by
  simp [ResourcePool.useResource, hd, hu, hlt]

theorem ResourcePool.useResource_eq_block {p : ResourcePool}
    (hd : p.draining = false) (hu : p.unused = [])
    (hlt : ¬ ResourcePool.numOwned p < p.capacity) :
    ResourcePool.useResource p = { p with waiters := p.waiters + 1 } := by
  simp [ResourcePool.useResource, hd, hu, hlt]

theorem PromiseMap.lookup_append_other {m : PromiseMap V} {k k' : String}
    (h : k' ≠ k) (st : PState V) :
    PromiseMap.lookup (m ++ [(k, st)]) k' = PromiseMap.lookup m k' := by
  have hne : ¬ k = k' := fun h' => h h'.symm
  induction m with
  | nil => simp [PromiseMap.lookup, hne]
  | cons hd tl ih =>
      obtain ⟨k₀, st₀⟩ := hd
      by_cases hk : k₀ = k' <;> simp [PromiseMap.lookup, hk, ih]

theorem PromiseMap.lookup_setState_other {m : PromiseMap V} {k k' : String}
    (h : k' ≠ k) (st : PState V) :
    PromiseMap.lookup (PromiseMap.setState m k st) k' = PromiseMap.lookup m k' := by
  have hne : ¬ k = k' := fun h' => h h'.symm
  induction m with
  | nil => simp [PromiseMap.setState]
  | cons hd tl ih =>
      obtain ⟨k₀, st₀⟩ := hd
      by_cases hk : k₀ = k
      · subst hk
        simp [PromiseMap.setState, PromiseMap.lookup, hne]
      · by_cases hk' : k₀ = k' <;>
          simp [PromiseMap.setState, PromiseMap.lookup, hk, hk', h, hne, ih]

theorem PromiseMap.lookup_resolve_self (m : PromiseMap V) (k : String) (v : V) :
    PromiseMap.lookup (PromiseMap.resolve m k v).1 k =
      some (PState.fulfilled v) := by
  unfold PromiseMap.resolve
  cases hlk : PromiseMap.lookup m k with
  | none => exact PromiseMap.lookup_append_none hlk _
  | some st =>
      cases st <;> exact PromiseMap.lookup_setState_self hlk _

theorem PromiseMap.lookup_resolve_other {m : PromiseMap V} {k k' : String}
    (h : k' ≠ k) (v : V) :
    PromiseMap.lookup (PromiseMap.resolve m k v).1 k' =
      PromiseMap.lookup m k' := by
  unfold PromiseMap.resolve
  cases hlk : PromiseMap.lookup m k with
  | none => exact PromiseMap.lookup_append_other h _
  | some st =>
      cases st <;> exact PromiseMap.lookup_setState_other h _

theorem ResourcePool.getResource_inv {p : ResourcePool}
    (h : ResourcePool.Inv p) : ResourcePool.Inv (ResourcePool.getResource p) := by
  have h' := h
  simp only [ResourcePool.Inv, ResourcePool.numOwned, ResourcePool.numInUse,
    ResourcePool.numUnused] at h'
  obtain ⟨h1, h2, h3⟩ := h'
  cases hd : p.draining with
  | true => rw [ResourcePool.getResource_eq_draining hd]; exact h
  | false =>
    cases hu : p.unused with
    | cons r rest =>
        rw [ResourcePool.getResource_eq_cons hd hu]
        have hlen : p.unused.length = rest.length + 1 := by
          rw [hu]; rfl
        simp only [ResourcePool.Inv, ResourcePool.numOwned,
          ResourcePool.numInUse, ResourcePool.numUnused, List.length_append,
          List.length_cons, List.length_nil]
        omega
    | nil =>
        by_cases hlt : ResourcePool.numOwned p < p.capacity
        · rw [ResourcePool.getResource_eq_create hd hu hlt]
          simp only [ResourcePool.numOwned] at hlt
          have hlen : p.unused.length = 0 := by
            rw [hu]; rfl
          simp only [ResourcePool.Inv, ResourcePool.numOwned,
            ResourcePool.numInUse, ResourcePool.numUnused, List.length_append,
            List.length_cons, List.length_nil]
          omega
        · rw [ResourcePool.getResource_eq_block hd hu hlt]
          exact h

theorem ResourcePool.getResource_idsBound {p : ResourcePool}
    (h : ResourcePool.IdsBound p) :
    ResourcePool.IdsBound (ResourcePool.getResource p) := by
  obtain ⟨hIn, hUn⟩ := h
  cases hd : p.draining with
  | true => rw [ResourcePool.getResource_eq_draining hd]; exact ⟨hIn, hUn⟩
  | false =>
    cases hu : p.unused with
    | cons r rest =>
        rw [ResourcePool.getResource_eq_cons hd hu]
        refine ⟨?_, ?_⟩
        · intro x hx
          rcases List.mem_append.mp hx with hx | hx
          · exact hIn x hx
          · simp at hx
            subst hx
            exact hUn x (by simp [hu])
        · intro x hx
          have hx' : x ∈ rest := hx
          exact hUn x (by rw [hu]; exact List.mem_cons_of_mem r hx')
    | nil =>
        by_cases hlt : ResourcePool.numOwned p < p.capacity
        · rw [ResourcePool.getResource_eq_create hd hu hlt]
          refine ⟨?_, ?_⟩
          · intro x hx
            rcases List.mem_append.mp hx with hx | hx
            · exact Nat.lt_succ_of_lt (hIn x hx)
            · simp at hx
              subst hx
              exact Nat.lt_succ_self _
          · intro x hx
            exact Nat.lt_succ_of_lt (hUn x hx)
        · rw [ResourcePool.getResource_eq_block hd hu hlt]
          exact ⟨hIn, hUn⟩

theorem ResourcePool.returnResource_inv {p p' : ResourcePool} {r : Nat}
    (h : ResourcePool.returnResource p r = Except.ok p')
    (hI : ResourcePool.Inv p) : ResourcePool.Inv p' := by
  simp only [ResourcePool.Inv, ResourcePool.numOwned, ResourcePool.numInUse,
    ResourcePool.numUnused] at hI ⊢
  obtain ⟨h1, h2, h3⟩ := hI
  unfold ResourcePool.returnResource at h
  by_cases hmem : r ∈ p.inUse
  · have hlen : (p.inUse.erase r).length = p.inUse.length - 1 :=
      List.length_erase_of_mem hmem
    have hpos : 1 ≤ p.inUse.length := List.length_pos.mpr (by
      intro hnil
      simp [hnil] at hmem)
    rw [if_pos hmem] at h
    by_cases hd : p.draining
    · rw [if_pos hd] at h
      cases h
      simp only [hlen]
      exact ⟨by omega, by omega, by omega⟩
    · rw [if_neg hd] at h
      by_cases hw : p.waiters > 0
      · rw [if_pos hw] at h
        cases h
        simp only [List.length_append, List.length_cons, List.length_nil, hlen]
        exact ⟨h1, by omega, h3⟩
      · rw [if_neg hw] at h
        cases h
        simp only [List.length_append, List.length_cons, List.length_nil, hlen]
        exact ⟨h1, by omega, h3⟩
  · rw [if_neg hmem] at h
    cases h

theorem ResourcePool.returnResource_idsBound {p p' : ResourcePool} {r : Nat}
    (h : ResourcePool.returnResource p r = Except.ok p')
    (hI : ResourcePool.IdsBound p) : ResourcePool.IdsBound p' := by
  obtain ⟨hIn, hUn⟩ := hI
  unfold ResourcePool.returnResource at h
  by_cases hmem : r ∈ p.inUse
  · have herase : ∀ x ∈ p.inUse.erase r, x < p.created := fun x hx =>
      hIn x (List.mem_of_mem_erase hx)
    rw [if_pos hmem] at h
    by_cases hd : p.draining
    · rw [if_pos hd] at h
      cases h
      exact ⟨herase, hUn⟩
    · rw [if_neg hd] at h
      by_cases hw : p.waiters > 0
      · rw [if_pos hw] at h
        cases h
        refine ⟨?_, hUn⟩
        intro x hx
        rcases List.mem_append.mp hx with hx | hx
        · exact herase x hx
        · simp at hx
          subst hx
          exact hIn _ hmem
      · rw [if_neg hw] at h
        cases h
        refine ⟨herase, ?_⟩
        intro x hx
        rcases List.mem_append.mp hx with hx | hx
        · exact hUn x hx
        · simp at hx
          subst hx
          exact hIn _ hmem
  · rw [if_neg hmem] at h
    cases h

theorem ResourcePool.destroyAll_inv {p : ResourcePool}
    (h : ResourcePool.Inv p) : ResourcePool.Inv (ResourcePool.destroyAll p) := by
  simp only [ResourcePool.Inv, ResourcePool.numOwned, ResourcePool.numInUse,
    ResourcePool.numUnused, ResourcePool.destroyAll, List.length_nil] at h ⊢
  obtain ⟨h1, h2, h3⟩ := h
  exact ⟨by omega, by omega, by omega⟩

theorem ResourcePool.destroyAll_idsBound {p : ResourcePool}
    (h : ResourcePool.IdsBound p) :
    ResourcePool.IdsBound (ResourcePool.destroyAll p) := by
  obtain ⟨hIn, hUn⟩ := h
  exact ⟨hIn, by intro x hx; simp [ResourcePool.destroyAll] at hx⟩

theorem ResourcePool.useResource_inv {p : ResourcePool}
    (hI : ResourcePool.Inv p) : ResourcePool.Inv (ResourcePool.useResource p) := by
  have base := hI
  simp only [ResourcePool.Inv, ResourcePool.numOwned, ResourcePool.numInUse,
    ResourcePool.numUnused] at hI
  obtain ⟨h1, h2, h3⟩ := hI
  cases hd : p.draining with
  | true => rw [ResourcePool.useResource_eq_draining hd]; exact base
  | false =>
    cases hu : p.unused with
    | cons r rest =>
        rw [ResourcePool.useResource_eq_cons hd hu]
        have hq : ResourcePool.Inv { p with unused := rest, inUse := p.inUse ++ [r] } := by
          have hlen : p.unused.length = rest.length + 1 := by
            rw [hu]; rfl
          simp only [ResourcePool.Inv, ResourcePool.numOwned,
            ResourcePool.numInUse, ResourcePool.numUnused, List.length_append,
            List.length_cons, List.length_nil]
          omega
        split
        · rename_i p' heq'
          exact ResourcePool.returnResource_inv heq' hq
        · exact base
    | nil =>
        by_cases hlt : ResourcePool.numOwned p < p.capacity
        · rw [ResourcePool.useResource_eq_create hd hu hlt]
          have hq : ResourcePool.Inv
              { p with created := p.created + 1, inUse := p.inUse ++ [p.created] } := by
            simp only [ResourcePool.numOwned] at hlt
            have hlen : p.unused.length = 0 := by
              rw [hu]; rfl
            simp only [ResourcePool.Inv, ResourcePool.numOwned,
              ResourcePool.numInUse, ResourcePool.numUnused, List.length_append,
              List.length_cons, List.length_nil]
            omega
          split
          · rename_i p' heq'
            exact ResourcePool.returnResource_inv heq' hq
          · exact base
        · rw [ResourcePool.useResource_eq_block hd hu hlt]
          have hlen : p.unused.length = 0 := by
            rw [hu]; rfl
          simp only [ResourcePool.Inv, ResourcePool.numOwned,
            ResourcePool.numInUse, ResourcePool.numUnused]
          omega

theorem ResourcePool.useResource_idsBound {p : ResourcePool}
    (hB : ResourcePool.IdsBound p) :
    ResourcePool.IdsBound (ResourcePool.useResource p) := by
  obtain ⟨hIn, hUn⟩ := hB
  cases hd : p.draining with
  | true => rw [ResourcePool.useResource_eq_draining hd]; exact ⟨hIn, hUn⟩
  | false =>
    cases hu : p.unused with
    | cons r rest =>
        rw [ResourcePool.useResource_eq_cons hd hu]
        have hq : ResourcePool.IdsBound
            { p with unused := rest, inUse := p.inUse ++ [r] } := by
          constructor
          · intro x hx
            rcases List.mem_append.mp hx with hx | hx
            · exact hIn x hx
            · simp at hx
              subst hx
              exact hUn x (by simp [hu])
          · intro x hx
            have hx' : x ∈ rest := hx
            exact hUn x (by rw [hu]; exact List.mem_cons_of_mem r hx')
        split
        · rename_i p' heq'
          exact ResourcePool.returnResource_idsBound heq' hq
        · exact ⟨hIn, hUn⟩
    | nil =>
        by_cases hlt : ResourcePool.numOwned p < p.capacity
        · rw [ResourcePool.useResource_eq_create hd hu hlt]
          have hq : ResourcePool.IdsBound
              { p with created := p.created + 1, inUse := p.inUse ++ [p.created] } := by
            constructor
            · intro x hx
              rcases List.mem_append.mp hx with hx | hx
              · exact Nat.lt_succ_of_lt (hIn x hx)
              · simp at hx
                subst hx
                exact Nat.lt_succ_self _
            · intro x hx
              exact Nat.lt_succ_of_lt (hUn x hx)
          split
          · rename_i p' heq'
            exact ResourcePool.returnResource_idsBound heq' hq
          · exact ⟨hIn, hUn⟩
        · rw [ResourcePool.useResource_eq_block hd hu hlt]
          exact ⟨hIn, hUn⟩

theorem ResourcePool.step_both {p : ResourcePool} (op : PoolOp)
    (hI : ResourcePool.Inv p) (hB : ResourcePool.IdsBound p) :
    ResourcePool.Inv (ResourcePool.step p op) ∧
      ResourcePool.IdsBound (ResourcePool.step p op) := by
  cases op with
  | get =>
      exact ⟨ResourcePool.getResource_inv hI, ResourcePool.getResource_idsBound hB⟩
  | ret r =>
      simp only [ResourcePool.step]
      split
      · rename_i p' heq
        exact ⟨ResourcePool.returnResource_inv heq hI,
          ResourcePool.returnResource_idsBound heq hB⟩
      · exact ⟨hI, hB⟩
  | use =>
      exact ⟨ResourcePool.useResource_inv hI, ResourcePool.useResource_idsBound hB⟩
  | returnAfter r =>
      simp only [ResourcePool.step, ResourcePool.returnAfter]
      split
      · rename_i p' heq
        exact ⟨ResourcePool.returnResource_inv heq hI,
          ResourcePool.returnResource_idsBound heq hB⟩
      · exact ⟨hI, hB⟩
  | destroyAll =>
      exact ⟨ResourcePool.destroyAll_inv hI, ResourcePool.destroyAll_idsBound hB⟩

theorem ResourcePool.foldl_both (ops : List PoolOp) (p : ResourcePool)
    (hI : ResourcePool.Inv p) (hB : ResourcePool.IdsBound p) :
    ResourcePool.Inv (ops.foldl ResourcePool.step p) ∧
      ResourcePool.IdsBound (ops.foldl ResourcePool.step p) := by
  induction ops generalizing p with
  | nil => exact ⟨hI, hB⟩
  | cons op rest ih =>
      obtain ⟨hI', hB'⟩ := ResourcePool.step_both op hI hB
      exact ih (ResourcePool.step p op) hI' hB'

theorem ResourcePool.run_both (capacity : Nat) (ops : List PoolOp) :
    ResourcePool.Inv (ResourcePool.run capacity ops) ∧
      ResourcePool.IdsBound (ResourcePool.run capacity ops) := by
  refine ResourcePool.foldl_both ops (ResourcePool.make capacity) ⟨Nat.le_refl 0, rfl, ?_⟩ ⟨?_, ?_⟩
  · simp [ResourcePool.numOwned, ResourcePool.make]
  · intro x hx
    simp [ResourcePool.make] at hx
  · intro x hx
    simp [ResourcePool.make] at hx

/- ===================================================================== -/
/- CLAIM THEOREMS                                                        -/
/- ===================================================================== -/

/-- C9: every options object built by the `RedisTcpOptions` constructor
(and, identically, by `RedisSocketOptions` and `RedisSentinelOptions`,
which call the same `appendDefaultOptions`) has `keyPrefix`
`"celery-task-meta-"`, `dropBufferSupport` `true` and `stringNumbers`
`true`, overwriting caller-supplied values; `RedisClusterOptions` applies
the forcing only to a present `redisOptions` sub-object, and cluster
options without `redisOptions` pass through entirely unmodified. -/
theorem c9_redis_default_options_forcing :
    (∀ o : BasicRedisTcpOptions,
       RedisTcpOptions.make o =
         { o with keyPrefix := some "celery-task-meta-",
                  dropBufferSupport := some true,
                  stringNumbers := some true }) ∧
    (∀ o : BasicRedisClusterOptions, o.redisOptions = none →
       RedisClusterOptions.make o = o) ∧
    (∀ (o : BasicRedisClusterOptions) (inner : BasicRedisTcpOptions),
       o.redisOptions = some inner →
       RedisClusterOptions.make o =
         { o with redisOptions := some ({ inner with
                      keyPrefix := some "celery-task-meta-",
                      dropBufferSupport := some true,
                      stringNumbers := some true }) }) := by
  refine ⟨fun o => rfl, fun o h => ?_, fun o inner h => ?_⟩
  · simp [RedisClusterOptions.make, h]
  · simp [RedisClusterOptions.make, h, appendDefaultOptions]

/-- Witness for C9 at concrete inputs: a cluster record without
`redisOptions` is left alone, and a TCP record with a caller-supplied
`keyPrefix` has it overwritten. -/
theorem c9_redis_default_options_forcing_witness :
    RedisClusterOptions.make { nodes := [("localhost", 6379)] } =
      { nodes := [("localhost", 6379)] } ∧
    RedisTcpOptions.make { protocol := "redis", keyPrefix := some "mine-" } =
      { protocol := "redis", keyPrefix := some "celery-task-meta-",
        dropBufferSupport := some true, stringNumbers := some true } := by
  exact ⟨c9_redis_default_options_forcing.2.1 _ rfl,
    c9_redis_default_options_forcing.1 _⟩

/-- C1 (refuting evaluation): `RpcBackend.get` `await`s the `PromiseMap`
entry before applying `createTimeoutPromise`, so the timer races a value
that is already settled.  When no result message ever arrives a finite
timeout never produces the rejection the claim (and the method's own doc
comment) promises — the returned future simply never settles — and when a
message arrives at instant `t` the call resolves at `t` no matter how small
the timeout is. -/
theorem c1_rpc_get_timeout_is_dead :
    RpcBackend.getOutcome none (some 5) = FutOutcome.neverSettles ∧
    RpcBackend.getOutcomeSpec none (some 5) =
      FutOutcome.rejectsAt 5 "timeout" ∧
    (∀ (t : Nat) (msg : AmqpMessage) (timeout : Nat),
       RpcBackend.getOutcome (some (t, msg)) (some timeout) =
         FutOutcome.resolvesAt t msg) := by
  refine ⟨rfl, rfl, fun t msg timeout => ?_⟩
  simp [RpcBackend.getOutcome, createTimeoutPromise, FutOutcome.shift]

/-- C2: on any map where `k` is not yet settled, `get(k)` followed by
`resolve(k, v)` notifies the original waiter with `v` and leaves `k`
fulfilled with `v`; and on any map whatsoever, `resolve(k, v)` followed by
`get(k)` yields a future that is already resolved with the same `v`. -/
theorem c2_promise_map_get_then_resolve {V : Type} :
    (∀ (m : PromiseMap V) (wid : Nat) (k : String) (v : V),
       PromiseMap.isSettled m k = false →
       (PromiseMap.get m wid k).2 = GetResult.willNotify ∧
       wid ∈ (PromiseMap.resolve (PromiseMap.get m wid k).1 k v).2.2 ∧
       PromiseMap.lookup (PromiseMap.resolve (PromiseMap.get m wid k).1 k v).1 k =
         some (PState.fulfilled v)) ∧
    (∀ (m : PromiseMap V) (wid : Nat) (k : String) (v : V),
       (PromiseMap.get (PromiseMap.resolve m k v).1 wid k).2 =
         GetResult.settledNow (Delivery.value v)) := by
  constructor
  · intro m wid k v hset
    unfold PromiseMap.isSettled at hset
    cases hlk : PromiseMap.lookup m k with
    | none =>
        have hmap : (PromiseMap.get m wid k).1 = m ++ [(k, PState.pending [wid])] := by
          simp [PromiseMap.get, hlk]
        have hres : (PromiseMap.get m wid k).2 = GetResult.willNotify := by
          simp [PromiseMap.get, hlk]
        have hlk1 : PromiseMap.lookup (PromiseMap.get m wid k).1 k =
            some (PState.pending [wid]) := by
          rw [hmap]
          exact PromiseMap.lookup_append_none hlk _
        refine ⟨hres, ?_, PromiseMap.lookup_resolve_self _ _ _⟩
        simp [PromiseMap.resolve, hlk1]
    | some st =>
        cases st with
        | pending ws =>
            have hmap : (PromiseMap.get m wid k).1 =
                PromiseMap.setState m k (PState.pending (ws ++ [wid])) := by
              simp [PromiseMap.get, hlk]
            have hres : (PromiseMap.get m wid k).2 = GetResult.willNotify := by
              simp [PromiseMap.get, hlk]
            have hlk1 : PromiseMap.lookup (PromiseMap.get m wid k).1 k =
                some (PState.pending (ws ++ [wid])) := by
              rw [hmap]
              exact PromiseMap.lookup_setState_self hlk _
            refine ⟨hres, ?_, PromiseMap.lookup_resolve_self _ _ _⟩
            simp [PromiseMap.resolve, hlk1]
        | fulfilled v' => rw [hlk] at hset; simp at hset
        | rejected e => rw [hlk] at hset; simp at hset
  · intro m wid k v
    have hlk : PromiseMap.lookup (PromiseMap.resolve m k v).1 k =
        some (PState.fulfilled v) := PromiseMap.lookup_resolve_self _ _ _
    simp [PromiseMap.get, hlk]

/-- Witness for C2 on a fresh map: key `"foo"` is unsettled, the waiter is
notified with the resolved value, and the stored record matches. -/
theorem c2_promise_map_get_then_resolve_witness :
    PromiseMap.isSettled ([] : PromiseMap Nat) "foo" = false ∧
    ((PromiseMap.get ([] : PromiseMap Nat) 0 "foo").2 = GetResult.willNotify ∧
     0 ∈ (PromiseMap.resolve (PromiseMap.get ([] : PromiseMap Nat) 0 "foo").1
           "foo" 15).2.2 ∧
     PromiseMap.lookup (PromiseMap.resolve
           (PromiseMap.get ([] : PromiseMap Nat) 0 "foo").1 "foo" 15).1 "foo" =
       some (PState.fulfilled 15)) := by
  exact ⟨rfl, c2_promise_map_get_then_resolve.1 [] 0 "foo" 15 rfl⟩

/-- C5: `onMessage(null)` turns every pending entry into a rejection with
`"RabbitMQ cancelled consumer"` and leaves settled entries alone; the
promise-map step of `end()` does the same with `"disconnecting"`; a
non-null message resolves exactly the entry keyed by its `correlationId`
and no other. -/
theorem c5_rpc_broker_fatal_fanout :
    (∀ (promises : PromiseMap AmqpMessage) (k : String),
       PromiseMap.lookup (RpcBackend.onMessage promises none) k =
         rejectPendingView (PromiseMap.lookup promises k)
           "RabbitMQ cancelled consumer") ∧
    (∀ (promises : PromiseMap AmqpMessage) (k : String),
       PromiseMap.lookup (RpcBackend.endPromises promises) k =
         rejectPendingView (PromiseMap.lookup promises k) "disconnecting") ∧
    (∀ (promises : PromiseMap AmqpMessage) (msg : AmqpMessage),
       PromiseMap.lookup (RpcBackend.onMessage promises (some msg))
           msg.correlationId = some (PState.fulfilled msg)) ∧
    (∀ (promises : PromiseMap AmqpMessage) (msg : AmqpMessage) (k : String),
       k ≠ msg.correlationId →
       PromiseMap.lookup (RpcBackend.onMessage promises (some msg)) k =
         PromiseMap.lookup promises k) := by
  refine ⟨fun promises k => ?_, fun promises k => ?_,
    fun promises msg => ?_, fun promises msg k hk => ?_⟩
  · unfold RpcBackend.onMessage
    exact PromiseMap.lookup_rejectAll promises "RabbitMQ cancelled consumer" k
  · unfold RpcBackend.endPromises
    exact PromiseMap.lookup_rejectAll promises "disconnecting" k
  · unfold RpcBackend.onMessage
    exact PromiseMap.lookup_resolve_self promises _ msg
  · unfold RpcBackend.onMessage
    exact PromiseMap.lookup_resolve_other hk msg

/-- Witness for C5: on a map with one pending and one fulfilled entry, the
broker-cancel fan-out rejects the pending entry, and a message for `"a"`
leaves the unrelated key `"b"` untouched. -/
theorem c5_rpc_broker_fatal_fanout_witness :
    PromiseMap.lookup
        (RpcBackend.onMessage [("a", PState.pending [0])] none) "a" =
      some (PState.rejected "RabbitMQ cancelled consumer") ∧
    ("b" ≠ "a" ∧
     PromiseMap.lookup
        (RpcBackend.onMessage
          [("b", PState.pending [1])]
          (some { correlationId := "a", content := [] })) "b" =
      PromiseMap.lookup [("b", PState.pending [1])] "b") := by
  refine ⟨?_, by decide, ?_⟩
  · exact c5_rpc_broker_fatal_fanout.1 [("a", PState.pending [0])] "a"
  · exact c5_rpc_broker_fatal_fanout.2.2.2
      [("b", PState.pending [1])] { correlationId := "a", content := [] } "b"
      (by decide)

/-- C6 (refuting evaluation): the claim requires the db to be set only for
paths matching the ANCHORED pattern `^\/0*(\d+)$` and a `ParseError` for
every other non-`"/"` path.  The code's regex is unanchored: the path
`"/5x"` does not match the anchored pattern, yet `addDatabase` happily
parses it to `db := 5` instead of failing. -/
theorem c6_redis_db_anchored_counterexample :
    ("/5x" : String) ≠ "/" ∧
    dbPathAnchoredValue "/5x" = none ∧
    addDatabase "/5x" { protocol := "redis" } =
      Except.ok { protocol := "redis", db := some 5 } := by
  refine ⟨by decide, by decide, rfl⟩

/-- C6 amended: `addDatabase` leaves `db` unset for the path `"/"`; for any
other path it sets `db` if and only if the path matches the UNANCHORED
pattern `^\/0*(\d+)` — a slash followed by at least one digit, whatever
follows — with the digit run read in base 10, and fails with the
`ParseError` message otherwise. -/
theorem c6_redis_db_path_amended (o : BasicRedisTcpOptions) (path : String) :
    (path = "/" → addDatabase path o = Except.ok o) ∧
    (path ≠ "/" → ∀ n, dbPathPrefixValue path = some n →
       addDatabase path o = Except.ok { o with db := some n }) ∧
    (path ≠ "/" → dbPathPrefixValue path = none →
       addDatabase path o = Except.error (dbErr path)) := by
  refine ⟨fun h => ?_, fun hne n hv => ?_, fun hne hv => ?_⟩
  · simp [addDatabase, h]
  · unfold addDatabase
    rw [if_neg hne, parseDb_eq, hv]
  · unfold addDatabase
    rw [if_neg hne, parseDb_eq, hv]

/-- Witness for C6 at a concrete input: `"/007x"` begins with slash-digits,
so the db becomes 7 (leading zeros stripped, trailing `x` ignored). -/
theorem c6_redis_db_path_amended_witness :
    ("/007x" : String) ≠ "/" ∧
    dbPathPrefixValue "/007x" = some 7 ∧
    addDatabase "/007x" { protocol := "redis" } =
      Except.ok { protocol := "redis", db := some 7 } := by
  refine ⟨by decide, rfl, ?_⟩
  exact (c6_redis_db_path_amended { protocol := "redis" } "/007x").2.1
    (by decide) 7 rfl

theorem takeWhile_all {p : Char → Bool} {cs : List Char}
    (h : ∀ c ∈ cs, p c = true) : cs.takeWhile p = cs := by
  simpa using takeWhile_append_all [] h

theorem dropWhile_all {p : Char → Bool} {cs : List Char}
    (h : ∀ c ∈ cs, p c = true) : cs.dropWhile p = [] := by
  simpa using dropWhile_append_all [] h

theorem all_of_forall {p : Char → Bool} {cs : List Char}
    (h : ∀ c ∈ cs, p c = true) : cs.all p = true := by
  induction cs with
  | nil => rfl
  | cons c t ih =>
      rw [List.all_cons, h c (List.mem_cons_self c t), Bool.true_and]
      exact ih fun x hx => h x (List.mem_cons_of_mem c hx)

theorem forall_of_all {p : Char → Bool} {cs : List Char}
    (h : cs.all p = true) : ∀ c ∈ cs, p c = true := by
  induction cs with
  | nil => exact fun c hc => absurd hc (List.not_mem_nil c)
  | cons c t ih =>
      rw [List.all_cons, Bool.and_eq_true] at h
      intro x hx
      rcases List.mem_cons.mp hx with rfl | hx'
      · exact h.1
      · exact ih h.2 x hx'

theorem mem_of_mem_dropWhile {p : Char → Bool} {cs : List Char} {x : Char}
    (h : x ∈ cs.dropWhile p) : x ∈ cs := by
  induction cs with
  | nil => simp [List.dropWhile] at h
  | cons c t ih =>
      rw [List.dropWhile_cons] at h
      by_cases hp : p c
      · rw [if_pos hp] at h
        exact List.mem_cons_of_mem c (ih h)
      · rw [if_neg hp] at h
        exact h

theorem matchUnsignedDecimal_digits {cs : List Char} (hne : cs ≠ [])
    (h : ∀ c ∈ cs, c.isDigit = true) : matchUnsignedDecimal cs = true := by
  have hinf : ¬ cs = "Infinity".data := by
    intro he
    have hI := h 'I' (by rw [he]; decide)
    exact absurd hI (by decide)
  obtain ⟨c, t, rfl⟩ : ∃ a b, cs = a :: b := by
    cases cs with
    | nil => exact absurd rfl hne
    | cons a b => exact ⟨a, b, rfl⟩
  unfold matchUnsignedDecimal
  rw [if_neg hinf, dropWhile_all h, takeWhile_all h]
  rfl

theorem matchSignedDecimal_digits {cs : List Char} (hne : cs ≠ [])
    (h : ∀ c ∈ cs, c.isDigit = true) : matchSignedDecimal cs = true := by
  obtain ⟨c, t, rfl⟩ : ∃ a b, cs = a :: b := by
    cases cs with
    | nil => exact absurd rfl hne
    | cons a b => exact ⟨a, b, rfl⟩
  have hc := h c (List.mem_cons_self c t)
  have hcp : ¬ (c = '+' ∨ c = '-') := by
    rintro (rfl | rfl) <;> exact absurd hc (by decide)
  rw [matchSignedDecimal, if_neg hcp]
  exact matchUnsignedDecimal_digits (by simp) h

theorem matchStrNumericLiteral_digits {cs : List Char} (hne : cs ≠ [])
    (h : ∀ c ∈ cs, c.isDigit = true) :
    matchStrNumericLiteral cs = true := by
  match cs, hne with
  | [], hne => exact absurd rfl hne
  | [c], _ =>
      rw [matchStrNumericLiteral]
      exact matchSignedDecimal_digits (by simp) h
  | c1 :: x :: rest, _ =>
      have hx := h x (by simp)
      have hx1 : ¬ (c1 = '0' ∧ (x = 'x' ∨ x = 'X')) := by
        rintro ⟨-, rfl | rfl⟩ <;> exact absurd hx (by decide)
      have hx2 : ¬ (c1 = '0' ∧ (x = 'o' ∨ x = 'O')) := by
        rintro ⟨-, rfl | rfl⟩ <;> exact absurd hx (by decide)
      have hx3 : ¬ (c1 = '0' ∧ (x = 'b' ∨ x = 'B')) := by
        rintro ⟨-, rfl | rfl⟩ <;> exact absurd hx (by decide)
      rw [matchStrNumericLiteral, if_neg hx1, if_neg hx2, if_neg hx3]
      exact matchSignedDecimal_digits (by simp) h

theorem jsToNumberIsNaN_digits {s : String} (hne : s.data ≠ [])
    (h : ∀ c ∈ s.data, c.isDigit = true) : jsToNumberIsNaN s = false := by
  unfold jsToNumberIsNaN
  rw [jsTrim_digits h, matchStrNumericLiteral_digits hne h]
  rfl

theorem digitsVal_ten {cs : List Char} (h : ∀ c ∈ cs, c.isDigit = true) :
    ∀ a, digitsVal 10 cs a = natOfDigitsFrom a cs := by
  induction cs with
  | nil => intro a; rfl
  | cons c t ih =>
      intro a
      have hc := h c (List.mem_cons_self c t)
      show digitsVal 10 t (a * 10 + (digitInBase 10 c).getD 0) =
        natOfDigitsFrom (a * 10 + (c.toNat - 48)) t
      rw [digitInBase_ten hc]
      exact ih (fun x hx => h x (List.mem_cons_of_mem c hx)) _

theorem jsParseIntFrom_digits {cs : List Char} (hne : cs ≠ [])
    (h : ∀ c ∈ cs, c.isDigit = true) :
    jsParseIntFrom 10 1 cs = some (natOfDigits cs : Int) := by
  have hp : ∀ c ∈ cs, ((digitInBase 10 c).isSome) = true := fun c hc => by
    rw [digitInBase_ten (h c hc)]
    rfl
  obtain ⟨c, t, rfl⟩ : ∃ a b, cs = a :: b := by
    cases cs with
    | nil => exact absurd rfl hne
    | cons a b => exact ⟨a, b, rfl⟩
  simp only [jsParseIntFrom]
  rw [takeWhile_all hp, List.isEmpty_cons, if_neg Bool.false_ne_true,
    one_mul, digitsVal_ten h 0]
  rfl

theorem jsParseIntRadix_digits {cs : List Char} (hne : cs ≠ [])
    (h : ∀ c ∈ cs, c.isDigit = true) :
    jsParseIntRadix 1 cs = some (natOfDigits cs : Int) := by
  match cs, hne with
  | [], hne => exact absurd rfl hne
  | [c], _ =>
      rw [jsParseIntRadix]
      · exact jsParseIntFrom_digits (by simp) h
      · intro c0 x r2 hcontra
        exact absurd hcontra (by simp)
  | c0 :: x :: r2, _ =>
      have hx := h x (by simp)
      have hcond : ¬ (c0 = '0' ∧ (x = 'x' ∨ x = 'X')) := by
        rintro ⟨-, rfl | rfl⟩ <;> exact absurd hx (by decide)
      rw [jsParseIntRadix, if_neg hcond]
      exact jsParseIntFrom_digits (by simp) h

theorem jsParseIntTrimmed_digits {cs : List Char} (hne : cs ≠ [])
    (h : ∀ c ∈ cs, c.isDigit = true) :
    jsParseIntTrimmed cs = some (natOfDigits cs : Int) := by
  obtain ⟨c, t, rfl⟩ : ∃ a b, cs = a :: b := by
    cases cs with
    | nil => exact absurd rfl hne
    | cons a b => exact ⟨a, b, rfl⟩
  have hc := h c (List.mem_cons_self c t)
  have h1 : ¬ c = '-' := fun he => absurd (he ▸ hc) (by decide)
  have h2 : ¬ c = '+' := fun he => absurd (he ▸ hc) (by decide)
  rw [jsParseIntTrimmed, if_neg h1, if_neg h2]
  exact jsParseIntRadix_digits (by simp) h

theorem jsParseInt_digits {s : String} (hne : s.data ≠ [])
    (h : ∀ c ∈ s.data, c.isDigit = true) :
    jsParseInt s = some (natOfDigits s.data : Int) := by
  unfold jsParseInt
  rw [jsTrim_digits h]
  exact jsParseIntTrimmed_digits hne h

theorem parsePort_digits {s : String} (hne : s.data ≠ [])
    (h : ∀ c ∈ s.data, c.isDigit = true) :
    parsePort s = Except.ok (some (natOfDigits s.data : Int)) := by
  unfold parsePort
  rw [jsToNumberIsNaN_digits hne h, if_neg Bool.false_ne_true,
    jsParseInt_digits hne h]

theorem natOfDigits_dropZeros (cs : List Char) :
    natOfDigits (cs.dropWhile (fun c => c = '0')) = natOfDigits cs := by
  have hz : ∀ c ∈ cs.takeWhile (fun c => c = '0'), c = '0' := by
    intro c hc
    have hp := List.mem_takeWhile_imp hc
    exact of_decide_eq_true hp
  unfold natOfDigits
  conv_rhs => rw [← List.takeWhile_append_dropWhile (fun c => c = '0') cs]
  exact (natOfDigitsFrom_zeros hz _).symm

theorem natOfDigitsFrom_append (l1 l2 : List Char) :
    ∀ a, natOfDigitsFrom a (l1 ++ l2) =
      natOfDigitsFrom (natOfDigitsFrom a l1) l2 := by
  induction l1 with
  | nil => intro a; rfl
  | cons c t ih =>
      intro a
      exact ih (a * 10 + (c.toNat - 48))

theorem char_toNat_ofNat {n : Nat} (h : n < 55296) :
    (Char.ofNat n).toNat = n := by
  have hv : n.isValidChar := Or.inl h
  unfold Char.ofNat
  rw [dif_pos hv]
  rfl

theorem isDigit_of_bounds {c : Char} (h1 : 48 ≤ c.toNat) (h2 : c.toNat ≤ 57) :
    c.isDigit = true := by
  simp [Char.isDigit]
  exact ⟨h1, h2⟩

theorem natToDecGo_spec : ∀ fuel n, n < fuel →
    (∀ c ∈ natToDecGo fuel n, c.isDigit = true) ∧ natToDecGo fuel n ≠ [] ∧
      natOfDigits (natToDecGo fuel n) = n := by
  intro fuel
  induction fuel with
  | zero => intro n hn; exact absurd hn (Nat.not_lt_zero n)
  | succ f ih =>
      intro n hn
      by_cases h10 : n < 10
      · have he : natToDecGo (f + 1) n = [Char.ofNat (48 + n)] := by
          show (if n < 10 then [Char.ofNat (48 + n)]
            else natToDecGo f (n / 10) ++ [Char.ofNat (48 + n % 10)]) = _
          rw [if_pos h10]
        have ht : (Char.ofNat (48 + n)).toNat = 48 + n :=
          char_toNat_ofNat (by omega)
        rw [he]
        refine ⟨?_, by simp, ?_⟩
        · intro c hc
          rw [List.mem_singleton] at hc
          subst hc
          exact isDigit_of_bounds (by rw [ht]; omega) (by rw [ht]; omega)
        · show 0 * 10 + ((Char.ofNat (48 + n)).toNat - 48) = n
          rw [ht]
          omega
      · have hdiv : n / 10 < f := by
          have := Nat.div_lt_self (by omega : 0 < n) (by omega : 1 < 10)
          omega
        obtain ⟨ihd, ihne, ihval⟩ := ih (n / 10) hdiv
        have he : natToDecGo (f + 1) n =
            natToDecGo f (n / 10) ++ [Char.ofNat (48 + n % 10)] := by
          show (if n < 10 then [Char.ofNat (48 + n)]
            else natToDecGo f (n / 10) ++ [Char.ofNat (48 + n % 10)]) = _
          rw [if_neg h10]
        have ht : (Char.ofNat (48 + n % 10)).toNat = 48 + n % 10 :=
          char_toNat_ofNat (by omega)
        rw [he]
        refine ⟨?_, by simp, ?_⟩
        · intro c hc
          rcases List.mem_append.mp hc with hc1 | hc2
          · exact ihd c hc1
          · rw [List.mem_singleton] at hc2
            subst hc2
            exact isDigit_of_bounds (by rw [ht]; omega) (by rw [ht]; omega)
        · have ihval' :
              natOfDigitsFrom 0 (natToDecGo f (n / 10)) = n / 10 := ihval
          show natOfDigitsFrom 0
            (natToDecGo f (n / 10) ++ [Char.ofNat (48 + n % 10)]) = n
          rw [natOfDigitsFrom_append]
          show natOfDigitsFrom 0 (natToDecGo f (n / 10)) * 10 +
            ((Char.ofNat (48 + n % 10)).toNat - 48) = n
          rw [ihval', ht]
          omega

theorem natToDec_spec (n : Nat) :
    (∀ c ∈ natToDec n, c.isDigit = true) ∧ natToDec n ≠ [] ∧
      natOfDigits (natToDec n) = n :=
  natToDecGo_spec (n + 1) n (by omega)

theorem hexDigitVal_hexDigitChar {d : Nat} (h : d < 16) :
    hexDigitVal (hexDigitChar d) = some d := by
  have hd : d = 0 ∨ d = 1 ∨ d = 2 ∨ d = 3 ∨ d = 4 ∨ d = 5 ∨ d = 6 ∨ d = 7 ∨
      d = 8 ∨ d = 9 ∨ d = 10 ∨ d = 11 ∨ d = 12 ∨ d = 13 ∨ d = 14 ∨
      d = 15 := by omega
  rcases hd with rfl | rfl | rfl | rfl | rfl | rfl | rfl | rfl | rfl | rfl |
    rfl | rfl | rfl | rfl | rfl | rfl <;> decide

theorem digit_facts {c : Char} (h : c.isDigit = true) :
    jsonWs c = false ∧ c ≠ 'n' ∧ c ≠ 't' ∧ c ≠ 'f' ∧ c ≠ '"' ∧ c ≠ '[' ∧
      c ≠ '{' ∧ c ≠ '-' ∧ c ≠ ']' ∧ c ≠ '}' := by
  obtain ⟨h1, h2⟩ := digit_toNat_bounds h
  refine ⟨?_, fun he => absurd (he ▸ h2) (by decide),
    fun he => absurd (he ▸ h2) (by decide),
    fun he => absurd (he ▸ h2) (by decide),
    fun he => absurd (he ▸ h1) (by decide),
    fun he => absurd (he ▸ h2) (by decide),
    fun he => absurd (he ▸ h2) (by decide),
    fun he => absurd (he ▸ h1) (by decide),
    fun he => absurd (he ▸ h2) (by decide),
    fun he => absurd (he ▸ h2) (by decide)⟩
  apply decide_eq_false
  rintro (rfl | rfl | rfl | rfl) <;> exact absurd h1 (by decide)

theorem skipWs_not_ws {c : Char} {t : List Char} (h : jsonWs c = false) :
    skipWs (c :: t) = c :: t := by
  unfold skipWs
  rw [List.dropWhile_cons, h, if_neg Bool.false_ne_true]

theorem parseStr_step_some {f : Nat} {tail s r : List Char} (c : Char)
    (hp : parseStr f tail = some (s, r)) :
    parseStr (f + 1) (escapeChar c ++ tail) = some (c :: s, r) := by
  by_cases h1 : c = '"'
  · subst h1
    show (parseStr f tail).map (fun p => ('"' :: p.1, p.2)) = _
    rw [hp]
    rfl
  by_cases h2 : c = '\\'
  · subst h2
    show (parseStr f tail).map (fun p => ('\\' :: p.1, p.2)) = _
    rw [hp]
    rfl
  by_cases h3 : c = '\n'
  · subst h3
    show (parseStr f tail).map (fun p => ('\n' :: p.1, p.2)) = _
    rw [hp]
    rfl
  by_cases h4 : c = '\x0d'
  · subst h4
    show (parseStr f tail).map (fun p => ('\x0d' :: p.1, p.2)) = _
    rw [hp]
    rfl
  by_cases h5 : c = '\t'
  · subst h5
    show (parseStr f tail).map (fun p => ('\t' :: p.1, p.2)) = _
    rw [hp]
    rfl
  by_cases h6 : c = '\x08'
  · subst h6
    show (parseStr f tail).map (fun p => ('\x08' :: p.1, p.2)) = _
    rw [hp]
    rfl
  by_cases h7 : c = '\x0c'
  · subst h7
    show (parseStr f tail).map (fun p => ('\x0c' :: p.1, p.2)) = _
    rw [hp]
    rfl
  by_cases h8 : c.toNat < 32
  · have he : escapeChar c = ['\\', 'u', '0', '0',
        hexDigitChar (c.toNat / 16), hexDigitChar (c.toNat % 16)] := by
      unfold escapeChar
      rw [if_neg h1, if_neg h2, if_neg h3, if_neg h4, if_neg h5, if_neg h6,
        if_neg h7, if_pos h8]
    rw [he]
    have hu : unescape ('u' :: '0' :: '0' :: hexDigitChar (c.toNat / 16) ::
        hexDigitChar (c.toNat % 16) :: tail) = some (c, tail) := by
      show ((hexDigitVal (hexDigitChar (c.toNat / 16))).bind fun cc =>
        (hexDigitVal (hexDigitChar (c.toNat % 16))).map fun d =>
          (Char.ofNat (((0 * 16 + 0) * 16 + cc) * 16 + d), tail)) = _
      rw [hexDigitVal_hexDigitChar (by omega),
        hexDigitVal_hexDigitChar (by omega)]
      simp only [Option.some_bind, Option.map_some']
      rw [show ((0 * 16 + 0) * 16 + c.toNat / 16) * 16 + c.toNat % 16 =
        c.toNat by omega]
      rw [Char.ofNat_toNat]
    show ((unescape ('u' :: '0' :: '0' :: hexDigitChar (c.toNat / 16) ::
        hexDigitChar (c.toNat % 16) :: tail)).bind fun dc =>
          (parseStr f dc.2).map fun p => (dc.1 :: p.1, p.2)) = _
    rw [hu]
    simp only [Option.some_bind]
    show (parseStr f tail).map (fun p => (c :: p.1, p.2)) = _
    rw [hp]
    rfl
  · have he : escapeChar c = [c] := by
      unfold escapeChar
      rw [if_neg h1, if_neg h2, if_neg h3, if_neg h4, if_neg h5, if_neg h6,
        if_neg h7, if_neg h8]
    rw [he]
    show parseStr (f + 1) (c :: tail) = _
    rw [parseStr, if_neg h1, if_neg h2, hp]
    rfl

theorem parseStr_escape :
    ∀ (s rest : List Char) (fuel : Nat), s.length < fuel →
      parseStr fuel (escapeStr s ++ '"' :: rest) = some (s, rest) := by
  intro s
  induction s with
  | nil =>
      intro rest fuel hf
      obtain ⟨f, rfl⟩ : ∃ f, fuel = f + 1 := ⟨fuel - 1, by omega⟩
      rfl
  | cons c s' ih =>
      intro rest fuel hf
      obtain ⟨f, rfl⟩ : ∃ f, fuel = f + 1 := ⟨fuel - 1, by omega⟩
      have hs' : s'.length < f := by
        rw [List.length_cons] at hf
        omega
      have hp := ih rest f hs'
      show parseStr (f + 1) ((escapeChar c ++ escapeStr s') ++ '"' :: rest) =
        some (c :: s', rest)
      rw [List.append_assoc]
      exact parseStr_step_some c hp

theorem takeWhile_cons_false {p : Char → Bool} {c : Char} {t : List Char}
    (h : p c = false) : (c :: t).takeWhile p = [] := by
  rw [List.takeWhile_cons, h, if_neg Bool.false_ne_true]

theorem skipWs_quote (t : List Char) : skipWs ('"' :: t) = '"' :: t :=
  skipWs_not_ws (by decide)

theorem skipWs_colon (t : List Char) : skipWs (':' :: t) = ':' :: t :=
  skipWs_not_ws (by decide)

theorem skipWs_comma (t : List Char) : skipWs (',' :: t) = ',' :: t :=
  skipWs_not_ws (by decide)

theorem skipWs_rbrack (t : List Char) : skipWs (']' :: t) = ']' :: t :=
  skipWs_not_ws (by decide)

theorem skipWs_rbrace (t : List Char) : skipWs ('}' :: t) = '}' :: t :=
  skipWs_not_ws (by decide)

theorem skipWs_lbrack (t : List Char) : skipWs ('[' :: t) = '[' :: t :=
  skipWs_not_ws (by decide)

theorem skipWs_lbrace (t : List Char) : skipWs ('{' :: t) = '{' :: t :=
  skipWs_not_ws (by decide)

theorem escapeStr_len (s : List Char) : s.length ≤ (escapeStr s).length := by
  induction s with
  | nil => simp [escapeStr]
  | cons c t ih =>
      have h1 : 1 ≤ (escapeChar c).length := by
        unfold escapeChar
        split_ifs <;> simp
      show (c :: t).length ≤ (escapeChar c ++ escapeStr t).length
      rw [List.length_cons, List.length_append]
      omega

theorem stringifyLead (v : JsonValue) :
    ∃ c t, jsonStringify v = c :: t ∧ jsonWs c = false ∧ c ≠ ']' ∧
      c ≠ '}' := by
  cases v with
  | null => exact ⟨'n', _, rfl, by decide⟩
  | bool b =>
      cases b
      case false => exact ⟨'f', _, rfl, by decide⟩
      case true => exact ⟨'t', _, rfl, by decide⟩
  | num n =>
      by_cases hn : n < 0
      · refine ⟨'-', natToDec n.natAbs, ?_, by decide⟩
        show intToDec n = '-' :: natToDec n.natAbs
        unfold intToDec
        rw [if_pos hn]
      · obtain ⟨hdig, hne, -⟩ := natToDec_spec n.natAbs
        obtain ⟨d, t, hdt⟩ : ∃ a b, natToDec n.natAbs = a :: b := by
          cases hc : natToDec n.natAbs with
          | nil => exact absurd hc hne
          | cons a b => exact ⟨a, b, rfl⟩
        have hdd : d.isDigit = true :=
          hdig d (by rw [hdt]; exact List.mem_cons_self d t)
        obtain ⟨hw, -, -, -, -, -, -, -, h9, h10⟩ := digit_facts hdd
        refine ⟨d, t, ?_, hw, h9, h10⟩
        show intToDec n = d :: t
        unfold intToDec
        rw [if_neg hn, hdt]
  | str s => exact ⟨'"', _, rfl, by decide⟩
  | arr items => exact ⟨'[', _, rfl, by decide⟩
  | obj members => exact ⟨'{', _, rfl, by decide⟩

theorem lenJ_pos (v : JsonValue) : 1 ≤ (jsonStringify v).length := by
  obtain ⟨c, t, h, -, -, -⟩ := stringifyLead v
  rw [h]
  simp

theorem parseVal_num (k : Int) (rest : List Char) (f : Nat)
    (hnd : rest.takeWhile Char.isDigit = []) :
    parseVal (f + 1) (intToDec k ++ rest) = some (JsonValue.num k, rest) := by
  have hdw : rest.dropWhile Char.isDigit = rest := by
    have h := List.takeWhile_append_dropWhile Char.isDigit rest
    rw [hnd] at h
    simpa using h
  obtain ⟨hdig, hne, hval⟩ := natToDec_spec k.natAbs
  obtain ⟨d, t, hdt⟩ : ∃ a b, natToDec k.natAbs = a :: b := by
    cases hc : natToDec k.natAbs with
    | nil => exact absurd hc hne
    | cons a b => exact ⟨a, b, rfl⟩
  by_cases hk : k < 0
  · have he : intToDec k = '-' :: natToDec k.natAbs := by
      unfold intToDec
      rw [if_pos hk]
    rw [he]
    show (if ((natToDec k.natAbs ++ rest).takeWhile Char.isDigit).isEmpty
        then none
        else some (JsonValue.num
          (-(natOfDigits ((natToDec k.natAbs ++ rest).takeWhile
            Char.isDigit) : Int)),
          (natToDec k.natAbs ++ rest).dropWhile Char.isDigit)) =
      some (JsonValue.num k, rest)
    rw [takeWhile_append_all rest hdig, hnd, List.append_nil,
      dropWhile_append_all rest hdig, hdw, hdt, List.isEmpty_cons,
      if_neg Bool.false_ne_true, ← hdt, hval]
    have hknat : -(k.natAbs : Int) = k := by omega
    rw [hknat]
  · have he : intToDec k = natToDec k.natAbs := by
      unfold intToDec
      rw [if_neg hk]
    rw [he, hdt]
    have hdd : d.isDigit = true :=
      hdig d (by rw [hdt]; exact List.mem_cons_self d t)
    obtain ⟨hw, hn1, hn2, hn3, hn4, hn5, hn6, hn7, -, -⟩ := digit_facts hdd
    have hsk : skipWs (d :: (t ++ rest)) = d :: (t ++ rest) :=
      skipWs_not_ws hw
    show parseVal (f + 1) (d :: (t ++ rest)) = some (JsonValue.num k, rest)
    rw [parseVal]
    simp only [hsk]
    rw [if_neg hn1, if_neg hn2, if_neg hn3, if_neg hn4, if_neg hn5,
      if_neg hn6, if_neg hn7, if_pos hdd]
    have hdig' : ∀ c ∈ d :: t, c.isDigit = true := by
      rw [← hdt]
      exact hdig
    rw [show d :: (t ++ rest) = (d :: t) ++ rest from rfl,
      takeWhile_append_all rest hdig', hnd, List.append_nil,
      dropWhile_append_all rest hdig', hdw, ← hdt, hval]
    have hknat : (k.natAbs : Int) = k := by omega
    rw [hknat]

theorem parse_stringify : ∀ fuel : Nat,
    (∀ v rest, (jsonStringify v).length < fuel →
      rest.takeWhile Char.isDigit = [] →
      parseVal fuel (jsonStringify v ++ rest) = some (v, rest)) ∧
    (∀ v vs acc rest,
      (stringifyItems (JsonItems.cons v vs)).length + 1 < fuel →
      parseArrRest fuel (stringifyItems (JsonItems.cons v vs) ++ ']' :: rest)
        acc = some (JsonValue.arr (acc.append (JsonItems.cons v vs)), rest)) ∧
    (∀ k v kvs acc rest,
      (stringifyMembers (JsonMembers.cons k v kvs)).length + 1 < fuel →
      parseObjRest fuel
        (stringifyMembers (JsonMembers.cons k v kvs) ++ '}' :: rest) acc =
        some (JsonValue.obj (acc.append (JsonMembers.cons k v kvs)),
          rest)) := by
  intro fuel
  induction fuel with
  | zero =>
      exact ⟨fun v rest h _ => absurd h (Nat.not_lt_zero _),
        fun v vs acc rest h => absurd h (Nat.not_lt_zero _),
        fun k v kvs acc rest h => absurd h (Nat.not_lt_zero _)⟩
  | succ f ih =>
      obtain ⟨ihv, iha, iho⟩ := ih
      refine ⟨?_, ?_, ?_⟩
      · intro v rest hsz hnd
        cases v with
        | null => rfl
        | bool b =>
            cases b with
            | true => rfl
            | false => rfl
        | num n => exact parseVal_num n rest f hnd
        | str s =>
            have hel := escapeStr_len s.data
            have hlen : (jsonStringify (JsonValue.str s)).length =
                (escapeStr s.data).length + 2 := by
              show ('"' :: (escapeStr s.data ++ ['"'])).length = _
              simp
            have hf : s.data.length < f := by omega
            show (parseStr f ((escapeStr s.data ++ ['"']) ++ rest)).map
              (fun p => (JsonValue.str (String.mk p.1), p.2)) =
              some (JsonValue.str s, rest)
            rw [List.append_assoc, List.singleton_append,
              parseStr_escape s.data rest f hf]
            rfl
        | arr items =>
            cases items with
            | nil => rfl
            | cons v1 vs =>
                have hlen : (jsonStringify (JsonValue.arr
                    (JsonItems.cons v1 vs))).length =
                    (stringifyItems (JsonItems.cons v1 vs)).length + 2 := by
                  show ('[' :: (stringifyItems (JsonItems.cons v1 vs) ++
                    [']'])).length = _
                  simp
                have hb : (stringifyItems (JsonItems.cons v1 vs)).length + 1 <
                    f := by omega
                obtain ⟨c0, t0, hsv, hws0, hne0, -⟩ := stringifyLead v1
                obtain ⟨tI, htI⟩ : ∃ tI,
                    stringifyItems (JsonItems.cons v1 vs) = c0 :: tI := by
                  cases vs with
                  | nil =>
                      refine ⟨t0, ?_⟩
                      show jsonStringify v1 = c0 :: t0
                      exact hsv
                  | cons w vs' =>
                      refine ⟨t0 ++ ',' ::
                        stringifyItems (JsonItems.cons w vs'), ?_⟩
                      show jsonStringify v1 ++ ',' ::
                        stringifyItems (JsonItems.cons w vs') = _
                      rw [hsv]
                      rfl
                have hstr : jsonStringify (JsonValue.arr
                    (JsonItems.cons v1 vs)) =
                    '[' :: (stringifyItems (JsonItems.cons v1 vs) ++
                      [']']) := rfl
                rw [hstr, List.cons_append, parseVal]
                simp only [skipWs_lbrack]
                rw [if_neg (by decide : ¬('[' : Char) = 'n'),
                  if_neg (by decide : ¬('[' : Char) = 't'),
                  if_neg (by decide : ¬('[' : Char) = 'f'),
                  if_neg (by decide : ¬('[' : Char) = '"'),
                  if_true]
                rw [List.append_assoc, List.singleton_append]
                have hskI : skipWs (stringifyItems (JsonItems.cons v1 vs) ++
                    ']' :: rest) = c0 :: (tI ++ ']' :: rest) := by
                  rw [htI]
                  exact skipWs_not_ws hws0
                simp only [hskI]
                rw [if_neg hne0]
                exact iha v1 vs JsonItems.nil rest hb
        | obj members =>
            cases members with
            | nil => rfl
            | cons k1 v1 kvs =>
                have hlen : (jsonStringify (JsonValue.obj
                    (JsonMembers.cons k1 v1 kvs))).length =
                    (stringifyMembers (JsonMembers.cons k1 v1 kvs)).length +
                      2 := by
                  show ('{' :: (stringifyMembers (JsonMembers.cons k1 v1 kvs)
                    ++ ['}'])).length = _
                  simp
                have hb : (stringifyMembers
                    (JsonMembers.cons k1 v1 kvs)).length + 1 < f := by omega
                obtain ⟨tM, htM⟩ : ∃ tM,
                    stringifyMembers (JsonMembers.cons k1 v1 kvs) =
                      '"' :: tM := by
                  cases kvs with
                  | nil => exact ⟨_, rfl⟩
                  | cons k2 v2 kvs' => exact ⟨_, rfl⟩
                have hstr : jsonStringify (JsonValue.obj
                    (JsonMembers.cons k1 v1 kvs)) =
                    '{' :: (stringifyMembers (JsonMembers.cons k1 v1 kvs) ++
                      ['}']) := rfl
                rw [hstr, List.cons_append, parseVal]
                simp only [skipWs_lbrace]
                rw [if_neg (by decide : ¬('{' : Char) = 'n'),
                  if_neg (by decide : ¬('{' : Char) = 't'),
                  if_neg (by decide : ¬('{' : Char) = 'f'),
                  if_neg (by decide : ¬('{' : Char) = '"'),
                  if_neg (by decide : ¬('{' : Char) = '['),
                  if_true]
                rw [List.append_assoc, List.singleton_append]
                have hskM : skipWs (stringifyMembers
                    (JsonMembers.cons k1 v1 kvs) ++ '}' :: rest) =
                    '"' :: (tM ++ '}' :: rest) := by
                  rw [htM]
                  exact skipWs_quote _
                simp only [hskM]
                rw [if_neg (by decide : ¬('"' : Char) = '}')]
                exact iho k1 v1 kvs JsonMembers.nil rest hb
      · intro v vs acc rest hsz
        rw [parseArrRest]
        cases vs with
        | nil =>
            have hbv : (jsonStringify v).length < f := by
              have h0 : (stringifyItems (JsonItems.cons v
                  JsonItems.nil)).length = (jsonStringify v).length := rfl
              omega
            have hpv : parseVal f (stringifyItems (JsonItems.cons v
                JsonItems.nil) ++ ']' :: rest) = some (v, ']' :: rest) := by
              show parseVal f (jsonStringify v ++ ']' :: rest) = _
              exact ihv v (']' :: rest) hbv (takeWhile_cons_false (by decide))
            rw [hpv]
            simp only [Option.some_bind, skipWs_rbrack]
            rw [if_neg (by decide : ¬(']' : Char) = ','),
              if_true]
        | cons w vs' =>
            have hITL : stringifyItems (JsonItems.cons v
                (JsonItems.cons w vs')) = jsonStringify v ++ ',' ::
                  stringifyItems (JsonItems.cons w vs') := rfl
            have hlen1 := lenJ_pos v
            rw [hITL] at hsz ⊢
            rw [List.append_assoc, List.cons_append]
            simp only [List.length_append, List.length_cons] at hsz
            have hbv : (jsonStringify v).length < f := by omega
            have hb' : (stringifyItems (JsonItems.cons w vs')).length + 1 <
                f := by omega
            have hpv := ihv v (',' :: (stringifyItems (JsonItems.cons w vs')
              ++ ']' :: rest)) hbv (takeWhile_cons_false (by decide))
            rw [hpv]
            simp only [Option.some_bind, skipWs_comma]
            rw [if_true]
            rw [iha w vs' (acc.append (JsonItems.cons v JsonItems.nil)) rest
              hb']
            rw [JsonItems.append_snoc]
      · intro k v kvs acc rest hsz
        rw [parseObjRest]
        have helk := escapeStr_len k.data
        have hlv := lenJ_pos v
        cases kvs with
        | nil =>
            have hM : stringifyMembers (JsonMembers.cons k v
                JsonMembers.nil) = '"' :: (escapeStr k.data ++ '"' :: ':' ::
                  jsonStringify v) := rfl
            rw [hM] at hsz ⊢
            simp only [List.length_append, List.length_cons] at hsz
            have hbk : k.data.length < f := by omega
            have hbv : (jsonStringify v).length < f := by omega
            rw [List.cons_append]
            simp only [skipWs_quote]
            rw [if_true]
            rw [List.append_assoc, List.cons_append, List.cons_append]
            rw [parseStr_escape k.data (':' :: (jsonStringify v ++ '}' ::
              rest)) f hbk]
            simp only [Option.some_bind, skipWs_colon]
            rw [if_true]
            rw [ihv v ('}' :: rest) hbv (takeWhile_cons_false (by decide))]
            simp only [Option.some_bind, skipWs_rbrace]
            rw [if_neg (by decide : ¬('}' : Char) = ','),
              if_true]
        | cons k2 v2 kvs' =>
            have hM : stringifyMembers (JsonMembers.cons k v
                (JsonMembers.cons k2 v2 kvs')) =
                ('"' :: (escapeStr k.data ++ '"' :: ':' :: jsonStringify v))
                  ++ ',' :: stringifyMembers (JsonMembers.cons k2 v2 kvs') :=
              rfl
            rw [hM] at hsz ⊢
            simp only [List.length_append, List.length_cons] at hsz
            have hbk : k.data.length < f := by omega
            have hbv : (jsonStringify v).length < f := by omega
            have hb' : (stringifyMembers (JsonMembers.cons k2 v2
                kvs')).length + 1 < f := by omega
            simp only [List.cons_append, List.append_assoc]
            simp only [skipWs_quote]
            rw [if_true]
            rw [parseStr_escape k.data (':' :: (jsonStringify v ++ ',' ::
              (stringifyMembers (JsonMembers.cons k2 v2 kvs') ++ '}' ::
                rest))) f hbk]
            simp only [Option.some_bind, skipWs_colon]
            rw [if_true]
            rw [ihv v (',' :: (stringifyMembers (JsonMembers.cons k2 v2
              kvs') ++ '}' :: rest)) hbv (takeWhile_cons_false (by decide))]
            simp only [Option.some_bind, skipWs_comma]
            rw [if_true]
            rw [iho k2 v2 kvs' (acc.append (JsonMembers.cons
              (String.mk k.data) v JsonMembers.nil)) rest hb']
            rw [JsonMembers.append_snoc]

theorem jsonParse_stringify (v : JsonValue) :
    jsonParse (jsonStringify v) = some v := by
  have h := (parse_stringify ((jsonStringify v).length + 1)).1 v []
    (by omega) rfl
  rw [List.append_nil] at h
  unfold jsonParse
  simp only [h]
  rfl

theorem utf8DecodeGo_one (f b : Nat) (bs : List Nat) (h : b < 128) :
    utf8DecodeGo (f + 1) (b :: bs) = Char.ofNat b :: utf8DecodeGo f bs := by
  simp only [utf8DecodeGo]
  rw [if_pos h]

theorem utf8DecodeGo_two (f b b1 : Nat) (bs : List Nat)
    (h1 : 192 ≤ b) (h2 : b < 224) (h3 : 128 ≤ b1) (h4 : b1 < 192) :
    utf8DecodeGo (f + 1) (b :: b1 :: bs) =
      Char.ofNat ((b - 192) * 64 + (b1 - 128)) :: utf8DecodeGo f bs := by
  simp only [utf8DecodeGo]
  rw [if_neg (by omega), if_neg (by omega), if_pos h2]
  show (if 128 ≤ b1 ∧ b1 < 192 then
      Char.ofNat ((b - 192) * 64 + (b1 - 128)) :: utf8DecodeGo f bs
    else repChar :: utf8DecodeGo f (b1 :: bs)) = _
  rw [if_pos ⟨h3, h4⟩]

theorem utf8DecodeGo_three (f b b1 b2 : Nat) (bs : List Nat)
    (h1 : 224 ≤ b) (h2 : b < 240) (h3 : 128 ≤ b1) (h4 : b1 < 192)
    (h5 : 128 ≤ b2) (h6 : b2 < 192) :
    utf8DecodeGo (f + 1) (b :: b1 :: b2 :: bs) =
      Char.ofNat (((b - 224) * 64 + (b1 - 128)) * 64 + (b2 - 128)) ::
        utf8DecodeGo f bs := by
  simp only [utf8DecodeGo]
  rw [if_neg (by omega), if_neg (by omega), if_neg (by omega), if_pos h2]
  show (if (128 ≤ b1 ∧ b1 < 192) ∧ (128 ≤ b2 ∧ b2 < 192) then
      Char.ofNat (((b - 224) * 64 + (b1 - 128)) * 64 + (b2 - 128)) ::
        utf8DecodeGo f bs
    else repChar :: utf8DecodeGo f (b1 :: b2 :: bs)) = _
  rw [if_pos ⟨⟨h3, h4⟩, h5, h6⟩]

theorem utf8DecodeGo_four (f b b1 b2 b3 : Nat) (bs : List Nat)
    (h1 : 240 ≤ b) (h3 : 128 ≤ b1) (h4 : b1 < 192)
    (h5 : 128 ≤ b2) (h6 : b2 < 192) (h7 : 128 ≤ b3) (h8 : b3 < 192) :
    utf8DecodeGo (f + 1) (b :: b1 :: b2 :: b3 :: bs) =
      Char.ofNat ((((b - 240) * 64 + (b1 - 128)) * 64 + (b2 - 128)) * 64 +
        (b3 - 128)) :: utf8DecodeGo f bs := by
  simp only [utf8DecodeGo]
  rw [if_neg (by omega), if_neg (by omega), if_neg (by omega),
    if_neg (by omega)]
  show (if (128 ≤ b1 ∧ b1 < 192) ∧ (128 ≤ b2 ∧ b2 < 192) ∧
      (128 ≤ b3 ∧ b3 < 192) then
      Char.ofNat ((((b - 240) * 64 + (b1 - 128)) * 64 + (b2 - 128)) * 64 +
        (b3 - 128)) :: utf8DecodeGo f bs
    else repChar :: utf8DecodeGo f (b1 :: b2 :: b3 :: bs)) = _
  rw [if_pos ⟨⟨h3, h4⟩, ⟨h5, h6⟩, h7, h8⟩]

theorem utf8_rt (cs : List Char) : ∀ fuel : Nat,
    (utf8Encode cs).length < fuel → utf8DecodeGo fuel (utf8Encode cs) = cs := by
  induction cs with
  | nil =>
      intro fuel hf
      obtain ⟨f, rfl⟩ : ∃ f, fuel = f + 1 := ⟨fuel - 1, by omega⟩
      rfl
  | cons c cs' ih =>
      intro fuel hf
      have hv : c.toNat < 55296 ∨ (57344 ≤ c.toNat ∧ c.toNat < 1114112) :=
        c.valid
      have hn : c.toNat < 1114112 := by rcases hv with h | h <;> omega
      have henc : utf8Encode (c :: cs') =
          utf8EncodeChar c ++ utf8Encode cs' := rfl
      rw [henc] at hf ⊢
      by_cases h1 : c.toNat < 128
      · have he : utf8EncodeChar c = [c.toNat] := by
          unfold utf8EncodeChar
          rw [if_pos h1]
        rw [he] at hf ⊢
        simp only [List.length_append, List.length_cons, List.length_nil]
          at hf
        obtain ⟨f, rfl⟩ : ∃ f, fuel = f + 1 := ⟨fuel - 1, by omega⟩
        simp only [List.cons_append, List.nil_append]
        rw [utf8DecodeGo_one f c.toNat _ h1, Char.ofNat_toNat,
          ih f (by omega)]
      · by_cases h2 : c.toNat < 2048
        · have he : utf8EncodeChar c =
              [192 + c.toNat / 64, 128 + c.toNat % 64] := by
            unfold utf8EncodeChar
            rw [if_neg h1, if_pos h2]
          rw [he] at hf ⊢
          simp only [List.length_append, List.length_cons, List.length_nil]
            at hf
          obtain ⟨f, rfl⟩ : ∃ f, fuel = f + 1 := ⟨fuel - 1, by omega⟩
          simp only [List.cons_append, List.nil_append]
          rw [utf8DecodeGo_two f _ _ _ (by omega) (by omega) (by omega)
            (by omega)]
          rw [show (192 + c.toNat / 64 - 192) * 64 +
            (128 + c.toNat % 64 - 128) = c.toNat by omega]
          rw [Char.ofNat_toNat, ih f (by omega)]
        · by_cases h3 : c.toNat < 65536
          · have he : utf8EncodeChar c = [224 + c.toNat / 4096,
                128 + (c.toNat / 64) % 64, 128 + c.toNat % 64] := by
              unfold utf8EncodeChar
              rw [if_neg h1, if_neg h2, if_pos h3]
            rw [he] at hf ⊢
            simp only [List.length_append, List.length_cons, List.length_nil]
              at hf
            obtain ⟨f, rfl⟩ : ∃ f, fuel = f + 1 := ⟨fuel - 1, by omega⟩
            simp only [List.cons_append, List.nil_append]
            rw [utf8DecodeGo_three f _ _ _ _ (by omega) (by omega) (by omega)
              (by omega) (by omega) (by omega)]
            rw [show ((224 + c.toNat / 4096 - 224) * 64 +
              (128 + (c.toNat / 64) % 64 - 128)) * 64 +
              (128 + c.toNat % 64 - 128) = c.toNat by omega]
            rw [Char.ofNat_toNat, ih f (by omega)]
          · have he : utf8EncodeChar c = [240 + c.toNat / 262144,
                128 + (c.toNat / 4096) % 64, 128 + (c.toNat / 64) % 64,
                128 + c.toNat % 64] := by
              unfold utf8EncodeChar
              rw [if_neg h1, if_neg h2, if_neg h3]
            rw [he] at hf ⊢
            simp only [List.length_append, List.length_cons, List.length_nil]
              at hf
            obtain ⟨f, rfl⟩ : ∃ f, fuel = f + 1 := ⟨fuel - 1, by omega⟩
            simp only [List.cons_append, List.nil_append]
            rw [utf8DecodeGo_four f _ _ _ _ _ (by omega) (by omega)
              (by omega) (by omega) (by omega) (by omega) (by omega)]
            rw [show (((240 + c.toNat / 262144 - 240) * 64 +
              (128 + (c.toNat / 4096) % 64 - 128)) * 64 +
              (128 + (c.toNat / 64) % 64 - 128)) * 64 +
              (128 + c.toNat % 64 - 128) = c.toNat by omega]
            rw [Char.ofNat_toNat, ih f (by omega)]

theorem utf8DecodeTotal_encode (cs : List Char) :
    utf8DecodeTotal (utf8Encode cs) = cs :=
  utf8_rt cs ((utf8Encode cs).length + 1) (by omega)

theorem b64Char_val {n : Nat} (h : n < 64) : b64Val (b64Char n) = some n := by
  by_cases h1 : n < 26
  · have he : b64Char n = Char.ofNat (65 + n) := by
      unfold b64Char
      rw [if_pos h1]
    have ht : (Char.ofNat (65 + n)).toNat = 65 + n :=
      char_toNat_ofNat (by omega)
    rw [he]
    unfold b64Val
    rw [ht, if_pos ⟨by omega, by omega⟩,
      show 65 + n - 65 = n by omega]
  · by_cases h2 : n < 52
    · have he : b64Char n = Char.ofNat (97 + (n - 26)) := by
        unfold b64Char
        rw [if_neg h1, if_pos h2]
      have ht : (Char.ofNat (97 + (n - 26))).toNat = 97 + (n - 26) :=
        char_toNat_ofNat (by omega)
      rw [he]
      unfold b64Val
      rw [ht, if_neg (by omega), if_pos ⟨by omega, by omega⟩,
        show 97 + (n - 26) - 71 = n by omega]
    · by_cases h3 : n < 62
      · have he : b64Char n = Char.ofNat (48 + (n - 52)) := by
          unfold b64Char
          rw [if_neg h1, if_neg h2, if_pos h3]
        have ht : (Char.ofNat (48 + (n - 52))).toNat = 48 + (n - 52) :=
          char_toNat_ofNat (by omega)
        rw [he]
        unfold b64Val
        rw [ht, if_neg (by omega), if_neg (by omega),
          if_pos ⟨by omega, by omega⟩,
          show 48 + (n - 52) + 4 = n by omega]
      · by_cases h4 : n = 62
        · subst h4
          decide
        · have h5 : n = 63 := by omega
          subst h5
          decide

theorem b64Char_ne_eq {n : Nat} (h : n < 64) : b64Char n ≠ '=' := by
  intro he
  have ht := congrArg Char.toNat he
  have h61 : ('=' : Char).toNat = 61 := rfl
  rw [h61] at ht
  by_cases h1 : n < 26
  · rw [show b64Char n = Char.ofNat (65 + n) by unfold b64Char; rw [if_pos h1],
      char_toNat_ofNat (by omega)] at ht
    omega
  · by_cases h2 : n < 52
    · rw [show b64Char n = Char.ofNat (97 + (n - 26)) by
        unfold b64Char; rw [if_neg h1, if_pos h2],
        char_toNat_ofNat (by omega)] at ht
      omega
    · by_cases h3 : n < 62
      · rw [show b64Char n = Char.ofNat (48 + (n - 52)) by
          unfold b64Char; rw [if_neg h1, if_neg h2, if_pos h3],
          char_toNat_ofNat (by omega)] at ht
        omega
      · by_cases h4 : n = 62
        · subst h4
          exact absurd ht (by decide)
        · have h5 : n = 63 := by omega
          subst h5
          exact absurd ht (by decide)

theorem b64Decode_quad {c0 c1 c2 c3 : Char} {rest : List Char}
    (h3 : c3 ≠ '=') :
    b64Decode (c0 :: c1 :: c2 :: c3 :: rest) =
      (b64Val c0).bind fun v0 =>
        (b64Val c1).bind fun v1 =>
          (b64Val c2).bind fun v2 =>
            (b64Val c3).bind fun v3 =>
              (b64Decode rest).map fun bs =>
                (v0 * 4 + v1 / 16) :: ((v1 % 16) * 16 + v2 / 4) ::
                  ((v2 % 4) * 64 + v3) :: bs := by
  rw [b64Decode]
  · intro _ hc3 _
    exact h3 hc3
  · intro hc3 _
    exact h3 hc3

theorem b64_rt : ∀ (k : Nat) (bs : List Nat), bs.length ≤ k →
    (∀ b ∈ bs, b < 256) → b64Decode (b64Encode bs) = some bs := by
  intro k
  induction k with
  | zero =>
      intro bs hl hb
      cases bs with
      | nil => rfl
      | cons b0 bs1 => simp at hl
  | succ k ihk =>
      intro bs hl hb
      cases bs with
      | nil => rfl
      | cons b0 bs1 =>
          have h0 : b0 < 256 := hb b0 (List.mem_cons_self b0 bs1)
          cases bs1 with
          | nil =>
              show b64Decode [b64Char (b0 / 4), b64Char ((b0 % 4) * 16),
                '=', '='] = some [b0]
              rw [b64Decode, b64Char_val (by omega)]
              simp only [Option.some_bind]
              rw [b64Char_val (by omega)]
              simp only [Option.map_some']
              rw [show b0 / 4 * 4 + (b0 % 4) * 16 / 16 = b0 by omega]
          | cons b1 bs2 =>
              have hb1 : b1 < 256 :=
                hb b1 (List.mem_cons_of_mem b0 (List.mem_cons_self b1 bs2))
              cases bs2 with
              | nil =>
                  show b64Decode [b64Char (b0 / 4),
                    b64Char ((b0 % 4) * 16 + b1 / 16),
                    b64Char ((b1 % 16) * 4), '='] = some [b0, b1]
                  rw [b64Decode, b64Char_val (by omega)]
                  simp only [Option.some_bind]
                  rw [b64Char_val (by omega)]
                  simp only [Option.some_bind]
                  rw [b64Char_val (by omega)]
                  simp only [Option.map_some']
                  rw [show b0 / 4 * 4 + ((b0 % 4) * 16 + b1 / 16) / 16 =
                    b0 by omega]
                  rw [show ((b0 % 4) * 16 + b1 / 16) % 16 * 16 +
                    (b1 % 16) * 4 / 4 = b1 by omega]
                  exact fun hc => b64Char_ne_eq (by omega) hc
              | cons b2 rest =>
                  have hb2 : b2 < 256 := hb b2 (List.mem_cons_of_mem b0
                    (List.mem_cons_of_mem b1 (List.mem_cons_self b2 rest)))
                  have hrec := ihk rest (by
                    simp only [List.length_cons] at hl
                    omega) (fun b hbm => hb b (List.mem_cons_of_mem b0
                      (List.mem_cons_of_mem b1 (List.mem_cons_of_mem b2
                        hbm))))
                  show b64Decode (b64Char (b0 / 4) ::
                    b64Char ((b0 % 4) * 16 + b1 / 16) ::
                    b64Char ((b1 % 16) * 4 + b2 / 64) ::
                    b64Char (b2 % 64) :: b64Encode rest) =
                    some (b0 :: b1 :: b2 :: rest)
                  rw [b64Decode_quad (b64Char_ne_eq (by omega))]
                  rw [b64Char_val (by omega)]
                  simp only [Option.some_bind]
                  rw [b64Char_val (by omega)]
                  simp only [Option.some_bind]
                  rw [b64Char_val (by omega)]
                  simp only [Option.some_bind]
                  rw [b64Char_val (by omega)]
                  simp only [Option.some_bind]
                  rw [hrec]
                  simp only [Option.map_some']
                  rw [show b0 / 4 * 4 + ((b0 % 4) * 16 + b1 / 16) / 16 =
                    b0 by omega]
                  rw [show ((b0 % 4) * 16 + b1 / 16) % 16 * 16 +
                    ((b1 % 16) * 4 + b2 / 64) / 4 = b1 by omega]
                  rw [show ((b1 % 16) * 4 + b2 / 64) % 4 * 64 + b2 % 64 =
                    b2 by omega]

/-- C3 counterexample: the in-range leading-zero port `010` is ACCEPTED
with value 10 — the WHATWG URL parser normalizes `010` to `10` before
`parsePort` ever sees it — whereas the claim requires leading-zero
octal-looking ports to fail with `ParseError`. -/
theorem c3_port_leading_zero_counterexample :
    parseUriPort "010" = Except.ok (some 10) ∧
    ∀ e, parseUriPort "010" ≠ Except.error e := by
  refine ⟨rfl, fun e he => ?_⟩
  rw [show parseUriPort "010" = Except.ok (some 10) from rfl] at he
  exact Except.noConfusion he

/-- C3 (amended): the authority port is accepted exactly when it is a
non-empty run of ASCII digits whose base-10 value is at most 65535 — so
in-range leading-zero ports such as `010` are accepted after URL
normalization, not rejected — and the resulting port is that base-10
value.  Hex and binary prefixes, signs, non-integer forms and
out-of-range values all fail with `ParseError`, and an absent port adds
no port field. -/
theorem c3_port_decimal_amended (portStr : String) :
    (portStr.data = [] → parseUriPort portStr = Except.ok none) ∧
    (portStr.data ≠ [] → (∀ c ∈ portStr.data, c.isDigit = true) →
      natOfDigits portStr.data ≤ 65535 →
      parseUriPort portStr = Except.ok (some (natOfDigits portStr.data : Int))) ∧
    ((∀ c ∈ portStr.data, c.isDigit = true) →
      65535 < natOfDigits portStr.data →
      ∃ e, parseUriPort portStr = Except.error e) ∧
    ((∃ c ∈ portStr.data, c.isDigit = false) →
      ∃ e, parseUriPort portStr = Except.error e) := by
  refine ⟨?_, ?_, ?_, ?_⟩
  · intro h0
    unfold parseUriPort urlPortString
    rw [h0]
    rfl
  · intro hne hdig hle
    obtain ⟨c, t, hd⟩ : ∃ a b, portStr.data = a :: b := by
      cases hcs : portStr.data with
      | nil => exact absurd hcs hne
      | cons a b => exact ⟨a, b, rfl⟩
    have hdig' : ∀ x ∈ c :: t, x.isDigit = true := by
      rw [← hd]
      exact hdig
    have hall : (c :: t).all Char.isDigit = true := all_of_forall hdig'
    have hle' : natOfDigits (c :: t) ≤ 65535 := by
      rw [← hd]
      exact hle
    by_cases hz : (c :: t).dropWhile (fun c => c = '0') = []
    · have hu : urlPortString portStr.data = some (some ['0']) := by
        rw [hd]
        unfold urlPortString
        rw [List.isEmpty_cons, if_neg Bool.false_ne_true, hall, if_pos rfl,
          if_pos hle', hz]
        rfl
      have h0 : natOfDigits (c :: t) = 0 := by
        rw [← natOfDigits_dropZeros (c :: t), hz]
        rfl
      simp only [parseUriPort, hu]
      rw [hd, h0]
      rfl
    · have hu : urlPortString portStr.data =
          some (some ((c :: t).dropWhile (fun c => c = '0'))) := by
        rw [hd]
        unfold urlPortString
        rw [List.isEmpty_cons, if_neg Bool.false_ne_true, hall, if_pos rfl,
          if_pos hle']
        obtain ⟨d, ds, hds⟩ :
            ∃ a b, (c :: t).dropWhile (fun c => c = '0') = a :: b := by
          cases hq : (c :: t).dropWhile (fun c => c = '0') with
          | nil => exact absurd hq hz
          | cons a b => exact ⟨a, b, rfl⟩
        rw [hds, List.isEmpty_cons, if_neg Bool.false_ne_true]
      simp only [parseUriPort, hu]
      rw [hd, ← natOfDigits_dropZeros (c :: t)]
      refine @parsePort_digits
        (String.mk ((c :: t).dropWhile (fun c => c = '0'))) hz ?_
      intro x hx
      have hx' : x ∈ (c :: t).dropWhile (fun c => c = '0') := hx
      exact hdig' x (mem_of_mem_dropWhile hx')
  · intro hdig hgt
    have hne : portStr.data ≠ [] := by
      intro h0
      rw [h0] at hgt
      exact absurd hgt (by decide)
    obtain ⟨c, t, hd⟩ : ∃ a b, portStr.data = a :: b := by
      cases hcs : portStr.data with
      | nil => exact absurd hcs hne
      | cons a b => exact ⟨a, b, rfl⟩
    have hdig' : ∀ x ∈ c :: t, x.isDigit = true := by
      rw [← hd]
      exact hdig
    have hall : (c :: t).all Char.isDigit = true := all_of_forall hdig'
    have hgt' : ¬ natOfDigits (c :: t) ≤ 65535 := by
      rw [← hd]
      omega
    have hu : urlPortString portStr.data = none := by
      rw [hd]
      unfold urlPortString
      rw [List.isEmpty_cons, if_neg Bool.false_ne_true, hall, if_pos rfl,
        if_neg hgt']
    refine ⟨"Celery.Uri.parse: string \"" ++ portStr ++
      "\" is not parsable", ?_⟩
    simp [parseUriPort, hu]
  · rintro ⟨x, hxmem, hxnd⟩
    have hne : portStr.data ≠ [] := by
      intro h0
      rw [h0] at hxmem
      exact absurd hxmem (List.not_mem_nil x)
    obtain ⟨c, t, hd⟩ : ∃ a b, portStr.data = a :: b := by
      cases hcs : portStr.data with
      | nil => exact absurd hcs hne
      | cons a b => exact ⟨a, b, rfl⟩
    have hall : (c :: t).all Char.isDigit = false := by
      cases hb : (c :: t).all Char.isDigit with
      | false => rfl
      | true =>
          have hx := forall_of_all hb x (by rw [← hd]; exact hxmem)
          rw [hxnd] at hx
          exact Bool.noConfusion hx
    have hu : urlPortString portStr.data = none := by
      rw [hd]
      unfold urlPortString
      rw [List.isEmpty_cons, if_neg Bool.false_ne_true, hall,
        if_neg Bool.false_ne_true]
    refine ⟨"Celery.Uri.parse: string \"" ++ portStr ++
      "\" is not parsable", ?_⟩
    simp [parseUriPort, hu]

/-- Witness for C3 (amended) at the absent port, `65535`, the
out-of-range `65536` and the hexadecimal `0x2a`. -/
theorem c3_port_decimal_amended_witness :
    parseUriPort "" = Except.ok none ∧
    parseUriPort "65535" = Except.ok (some 65535) ∧
    (∃ e, parseUriPort "65536" = Except.error e) ∧
    (∃ e, parseUriPort "0x2a" = Except.error e) := by
  refine ⟨(c3_port_decimal_amended "").1 rfl, ?_, ?_, ?_⟩
  · have h := (c3_port_decimal_amended "65535").2.1 (by decide) (by decide)
      (by decide)
    exact h.trans rfl
  · exact (c3_port_decimal_amended "65536").2.2.1 (by decide) (by decide)
  · exact (c3_port_decimal_amended "0x2a").2.2.2 ⟨'x', by decide, by decide⟩

/-- C4: `unpack` after `pack` is the identity: for ANY packer whose three
stages invert on the values flowing through (the external YAML, zlib and
gzip stages only carry this as a library contract, so it is a hypothesis),
`unpack (pack x) = x`; the in-repo stages actually satisfy those
round-trips — the Json serializer on EVERY (integer-numbered) JSON value,
the Base64 encoder on every byte sequence, the Plaintext encoder on every
UTF-8-encoded byte sequence — and the default packer's `pack` is exactly
base64 of the UTF-8 bytes of `JSON.stringify`. -/
theorem c4_packer_round_trip :
    (∀ (P : Packer) (v : JsonValue),
       P.serializer.deserialize (P.serializer.serialize v) = some v →
       P.compressor.decompress
           (P.compressor.compress (P.serializer.serialize v)) =
         some (P.serializer.serialize v) →
       P.encoder.decode (P.encoder.encode
           (P.compressor.compress (P.serializer.serialize v))) =
         some (P.compressor.compress (P.serializer.serialize v)) →
       P.unpack (P.pack v) = some v) ∧
    (∀ v : JsonValue,
       jsonSerializerImpl.deserialize (jsonSerializerImpl.serialize v) =
         some v) ∧
    (∀ bs : List Nat, (∀ b ∈ bs, b < 256) →
       base64Encoder.decode (base64Encoder.encode bs) = some bs) ∧
    (∀ cs : List Char,
       plaintextEncoder.decode (plaintextEncoder.encode (utf8Encode cs)) =
         some (utf8Encode cs)) ∧
    (∀ v : JsonValue,
       createDefaultPacker.pack v =
         b64Encode (utf8Encode (jsonStringify v))) := by
  refine ⟨fun P v hser hcomp henc => ?_, fun v => ?_, fun bs hb => ?_,
    fun cs => ?_, fun v => rfl⟩
  · unfold Packer.unpack Packer.pack
    rw [henc]
    simp only [Option.some_bind]
    rw [hcomp]
    simp only [Option.some_bind]
    exact hser
  · show jsonParse (utf8DecodeTotal (utf8Encode (jsonStringify v))) = some v
    rw [utf8DecodeTotal_encode, jsonParse_stringify]
  · exact b64_rt bs.length bs (le_refl _) hb
  · show some (utf8Encode (utf8DecodeTotal (utf8Encode cs))) =
      some (utf8Encode cs)
    rw [utf8DecodeTotal_encode]

set_option maxRecDepth 4000 in
/-- Witness for C4 at the packer test fixture
`{arr: [0, 5, 10], num: 15, obj: {bar: 10, foo: 5}, str: "foo"}`: the
default packer round-trips it, its packed form is the exact base64 the
test expects, and the Base64 encoder inverts on the bytes of `"foo"`. -/
theorem c4_packer_round_trip_witness :
    createDefaultPacker.unpack (createDefaultPacker.pack dataJson) =
      some dataJson ∧
    String.mk (createDefaultPacker.pack dataJson) =
      "eyJhcnIiOlswLDUsMTBdLCJudW0iOjE1LCJvYmoiOnsiYmFyIjoxMCwiZm9vIjo1fSwic3RyIjoiZm9vIn0=" ∧
    base64Encoder.decode (base64Encoder.encode [102, 111, 111]) =
      some [102, 111, 111] := by
  refine ⟨c4_packer_round_trip.1 createDefaultPacker dataJson rfl rfl rfl,
    rfl, c4_packer_round_trip.2.2.1 [102, 111, 111] (by decide)⟩

/-- C7: for well-formed amqp/amqps/rpc/rpcs URIs of the shape
`scheme://host[/vhost]`: no trailing slash leaves `vhost` unset, a bare
trailing slash yields vhost `""`, a segment after the slash yields that
very segment (stated for percent-free segments, where decoding is the
identity), and a URI with no authority fails with `ParseError`. -/
theorem c7_parse_amqp_uri_vhost (scheme host seg : String)
    (hs : scheme = "amqp" ∨ scheme = "amqps" ∨ scheme = "rpc" ∨
      scheme = "rpcs")
    (hreg : hostRegexTest host = true)
    (hchars : ∀ x ∈ host.data, (x.isAlphanum || x = '-' || x = '.') = true)
    (hhostne : host.data ≠ [])
    (hseg : ∀ x ∈ seg.data, isVhostClassChar x = true)
    (hpct : ∀ x ∈ seg.data, ¬ x = '%') :
    parseAmqpUri (scheme ++ "://" ++ host) =
      Except.ok { protocol := protocolOf scheme,
                  hostname := String.mk (host.data.map Char.toLower) } ∧
    parseAmqpUri (scheme ++ "://" ++ host ++ "/") =
      Except.ok { protocol := protocolOf scheme,
                  hostname := String.mk (host.data.map Char.toLower),
                  vhost := some "" } ∧
    parseAmqpUri (scheme ++ "://" ++ host ++ "/" ++ seg) =
      Except.ok { protocol := protocolOf scheme,
                  hostname := String.mk (host.data.map Char.toLower),
                  vhost := some seg } ∧
    (∃ e, parseAmqpUri (scheme ++ "://") = Except.error e) := by
  rcases hs with rfl | rfl | rfl | rfl
  · obtain ⟨s1, s2, s3⟩ := @parseAmqpUri_shapes "amqp" host seg 'a'
      ['m', 'q', 'p'] rfl (by decide) (by decide) (by decide) (by decide)
      (Or.inl rfl) (by decide) hreg hchars hhostne hseg hpct
    exact ⟨s1, s2, s3, ⟨"missing authority", rfl⟩⟩
  · obtain ⟨s1, s2, s3⟩ := @parseAmqpUri_shapes "amqps" host seg 'a'
      ['m', 'q', 'p', 's'] rfl (by decide) (by decide) (by decide) (by decide)
      (Or.inr (Or.inl rfl)) (by decide) hreg hchars hhostne hseg hpct
    exact ⟨s1, s2, s3, ⟨"missing authority", rfl⟩⟩
  · obtain ⟨s1, s2, s3⟩ := @parseAmqpUri_shapes "rpc" host seg 'r'
      ['p', 'c'] rfl (by decide) (by decide) (by decide) (by decide)
      (Or.inr (Or.inr (Or.inl rfl))) (by decide) hreg hchars hhostne hseg hpct
    exact ⟨s1, s2, s3, ⟨"missing authority", rfl⟩⟩
  · obtain ⟨s1, s2, s3⟩ := @parseAmqpUri_shapes "rpcs" host seg 'r'
      ['p', 'c', 's'] rfl (by decide) (by decide) (by decide) (by decide)
      (Or.inr (Or.inr (Or.inr rfl))) (by decide) hreg hchars hhostne hseg hpct
    exact ⟨s1, s2, s3, ⟨"missing authority", rfl⟩⟩

/-- Witness for C7 on `amqp://h` with vhost segment `v`. -/
theorem c7_parse_amqp_uri_vhost_witness :
    parseAmqpUri ("amqp" ++ "://" ++ "h") =
      Except.ok { protocol := "amqp", hostname := "h" } ∧
    parseAmqpUri ("amqp" ++ "://" ++ "h" ++ "/") =
      Except.ok { protocol := "amqp", hostname := "h", vhost := some "" } ∧
    parseAmqpUri ("amqp" ++ "://" ++ "h" ++ "/" ++ "v") =
      Except.ok { protocol := "amqp", hostname := "h", vhost := some "v" } ∧
    (∃ e, parseAmqpUri ("amqp" ++ "://") = Except.error e) := by
  exact c7_parse_amqp_uri_vhost "amqp" "h" "v" (Or.inl rfl) (by decide)
    (by decide) (by decide) (by decide) (by decide)

/-- C10: `appendVhost` sets a vhost only when the whole raw URI ends in a
slash followed solely by characters from `[\w\d-.~%]` (the regex capture);
when the regex does not match, the options pass through untouched with no
error; and an extracted vhost is the percent-decoding of the capture. -/
theorem c10_append_vhost_extraction :
    (∀ (raw : String) (appending : AmqpOptions),
       appendVhostMatch raw.data = none →
       appendVhost raw appending = Except.ok appending) ∧
    (∀ (raw : String) (capture : List Char),
       appendVhostMatch raw.data = some capture →
       (∃ prefixPart, raw.data = prefixPart ++ '/' :: capture) ∧
         capture.all isVhostClassChar = true) ∧
    (∀ (raw : String) (appending : AmqpOptions) (capture : List Char)
       (vhost : String),
       appendVhostMatch raw.data = some capture →
       decodeURIComponent (String.mk capture) = some vhost →
       appendVhost raw appending =
         Except.ok { appending with vhost := some vhost }) := by
  refine ⟨fun raw appending hm => ?_,
    fun raw capture hm => appendVhostMatch_some_shape hm,
    fun raw appending capture vhost hm hd => ?_⟩
  · simp only [appendVhost, hm]
  · simp only [appendVhost, hm, hd]

/-- Witness for C10: `amqp://h/v%41` matches with capture `v%41` and the
vhost decodes to `vA`; a query string after the segment defeats the match
and the options are returned untouched. -/
theorem c10_append_vhost_extraction_witness :
    appendVhostMatch ("amqp://h/v%41" : String).data =
      some ['v', '%', '4', '1'] ∧
    decodeURIComponent (String.mk ['v', '%', '4', '1']) = some "vA" ∧
    appendVhost "amqp://h/v%41" { protocol := "amqp", hostname := "h" } =
      Except.ok { protocol := "amqp", hostname := "h", vhost := some "vA" } ∧
    appendVhostMatch ("amqp://h/v?k=1" : String).data = none ∧
    appendVhost "amqp://h/v?k=1" { protocol := "amqp", hostname := "h" } =
      Except.ok { protocol := "amqp", hostname := "h" } := by
  refine ⟨rfl, rfl, ?_, rfl, ?_⟩
  · exact c10_append_vhost_extraction.2.2 "amqp://h/v%41"
      { protocol := "amqp", hostname := "h" } ['v', '%', '4', '1'] "vA" rfl rfl
  · exact c10_append_vhost_extraction.1 "amqp://h/v?k=1"
      { protocol := "amqp", hostname := "h" } rfl

/-- C8: starting from a fresh pool, after any sequence of
`get`/`return`/`use`/`returnAfter`/`destroyAll` operations the bookkeeping
invariant `numOwned = numInUse + numUnused ∧ numOwned ≤ capacity` holds;
returning a resource the pool never issued (its identifier is at least the
creation counter) is an error that leaves the state unchanged. -/
theorem c8_resource_pool_invariant :
    (∀ (capacity : Nat) (ops : List PoolOp),
       ResourcePool.Inv (ResourcePool.run capacity ops)) ∧
    (∀ (capacity : Nat) (ops : List PoolOp) (r : Nat),
       (ResourcePool.run capacity ops).created ≤ r →
       ResourcePool.returnResource (ResourcePool.run capacity ops) r =
         Except.error "resource was not created by this pool" ∧
       ResourcePool.step (ResourcePool.run capacity ops) (PoolOp.ret r) =
         ResourcePool.run capacity ops) := by
  refine ⟨fun capacity ops => (ResourcePool.run_both capacity ops).1,
    fun capacity ops r hr => ?_⟩
  have hB := (ResourcePool.run_both capacity ops).2
  have hmem : r ∉ (ResourcePool.run capacity ops).inUse := by
    intro hmem
    exact absurd (hB.1 r hmem) (by omega)
  have herr : ResourcePool.returnResource (ResourcePool.run capacity ops) r =
      Except.error "resource was not created by this pool" := by
    unfold ResourcePool.returnResource
    rw [if_neg hmem]
  refine ⟨herr, ?_⟩
  simp only [ResourcePool.step, herr]

/-- Witness for C8: after one `get` on a pool of capacity 4, returning the
foreign identifier 5 errors and changes nothing. -/
theorem c8_resource_pool_invariant_witness :
    (ResourcePool.run 4 [PoolOp.get]).created ≤ 5 ∧
    (ResourcePool.returnResource (ResourcePool.run 4 [PoolOp.get]) 5 =
       Except.error "resource was not created by this pool" ∧
     ResourcePool.step (ResourcePool.run 4 [PoolOp.get]) (PoolOp.ret 5) =
       ResourcePool.run 4 [PoolOp.get]) := by
  exact ⟨by decide, c8_resource_pool_invariant.2 4 [PoolOp.get] 5 (by decide)⟩


end Celeries
